import Mathlib

/-! The ring buffer `Circular<Element>` of `zcm/util/circular.hpp`.

A shallow embedding of the class `Circular<Element>` and theorems about it.

Modelling conventions.

* An `Element*` is a `Ptr α`: `none` is `nullptr`, `some a` is a pointer to the
  element `a`.
* The array `_data` is a list of pointers; reading or writing a slot outside the
  array (undefined behaviour in C++) is the fault `Fault.outOfBounds`, a failed
  `assert` is the fault `Fault.assertion` (assertions are taken as enabled).
* `size_t` values are natural numbers.  The array of `_capacity` pointers is
  allocated, so `_capacity` is far below `2^64` and no addition of the source
  wraps; every subtraction of the source is guarded by a test or an `assert`,
  except `_capacity - 1` and `_capacity - _front`, which stay non-negative as
  soon as `0 < _capacity` and `_front < _capacity`.
* `delete p` is recorded by appending `p` to the ghost field `deleted`.
* Member functions that are not `const` are state passing: they return the next
  buffer, together with the returned value if there is one.
-/

deriving instance DecidableEq for Except

/-- What stops a call: a failed `assert`, or an access outside an array. -/
inductive Fault where
  | assertion
  | outOfBounds
  deriving DecidableEq, Repr

/-- An `Element*`: `none` is `nullptr`. -/
abbrev Ptr (α : Type) := Option α

/-- The fields of `Circular<Element>`, and the ghost log `deleted` of the
pointers `delete` was applied to, oldest first. -/
structure Circular (α : Type) where
  _delete : Bool
  _capacity : Nat
  _front : Nat
  _back : Nat
  _size : Nat
  _data : List (Ptr α)
  deleted : List (Ptr α)
  deriving DecidableEq, Repr

namespace Circular

variable {α : Type}

/-- The read `d[i]` of an array slot. -/
def load (d : List (Ptr α)) (i : Nat) : Except Fault (Ptr α) :=
  if h : i < d.length then .ok (d.get ⟨i, h⟩) else .error .outOfBounds

/-- The write `d[i] = p` of an array slot. -/
def store (d : List (Ptr α)) (i : Nat) (p : Ptr α) : Except Fault (List (Ptr α)) :=
  if i < d.length then .ok (d.set i p) else .error .outOfBounds

/-- The call `memcpy(dst + dOff, src + sOff, n * sizeof(Element*))`. -/
def memcpy (dst : List (Ptr α)) (dOff : Nat) (src : List (Ptr α)) (sOff n : Nat) :
    Except Fault (List (Ptr α)) :=
  if sOff + n ≤ src.length ∧ dOff + n ≤ dst.length then
    .ok (dst.take dOff ++ (src.drop sOff).take n ++ dst.drop (dOff + n))
  else .error .outOfBounds

/-- The constructor `Circular(capacity, deleteWhenDone)`; `new Element*[capacity]`
leaves the slots uninitialised, their indeterminate content is `uninit`. -/
def new (capacity : Nat) (deleteWhenDone : Bool) (uninit : Nat → Ptr α) :
    Except Fault (Circular α) :=
  if capacity > 0 then
    .ok { _delete := deleteWhenDone
          _capacity := capacity
          _front := 0
          _back := 0
          _size := 0
          _data := (List.range capacity).map uninit
          deleted := [] }
  else .error .assertion

/-- The member `size()`. -/
def size (c : Circular α) : Nat := c._size

/-- The member `capacity()`. -/
def capacity (c : Circular α) : Nat := c._capacity

/-- The member `isEmpty()`. -/
def isEmpty (c : Circular α) : Bool := c._size == 0

/-- The member `isFull()`. -/
def isFull (c : Circular α) : Bool := c._size == c._capacity

/-- The member `pushBack(elt)`: the returned Boolean and the next buffer. -/
def pushBack (c : Circular α) (elt : Ptr α) : Except Fault (Bool × Circular α) :=
  if c.isFull then .ok (false, c)
  else
    match store c._data c._back elt with
    | .error e => .error e
    | .ok d =>
      let c1 := { c with _data := d }
      let c2 := { c1 with _size := c1._size + 1 }
      let c3 := { c2 with _back := c2._back + 1 }
      -- Handle wrap around
      let c4 := if c3._back == c3._capacity then { c3 with _back := 0 } else c3
      .ok (true, c4)

/-- The member `pushFront(elt)`: the returned Boolean and the next buffer. -/
def pushFront (c : Circular α) (elt : Ptr α) : Except Fault (Bool × Circular α) :=
  if c.isFull then .ok (false, c)
  else
    let c1 := { c with _size := c._size + 1 }
    let c2 := if c1._front != 0 then { c1 with _front := c1._front - 1 }
              else { c1 with _front := c1._capacity - 1 }
    match store c2._data c2._front elt with
    | .error e => .error e
    | .ok d => .ok (true, { c2 with _data := d })

/-- The member `front()`: the returned pointer and the buffer. -/
def front (c : Circular α) : Except Fault (Ptr α × Circular α) :=
  if c.isEmpty then .ok (none, c)
  else
    match load c._data c._front with
    | .error e => .error e
    | .ok p => .ok (p, c)

/-- The member `back()`: the returned pointer and the buffer. -/
def back (c : Circular α) : Except Fault (Ptr α × Circular α) :=
  if c.isEmpty then .ok (none, c)
  else
    let temp := if c._back == 0 then c._capacity - 1 else c._back - 1
    match load c._data temp with
    | .error e => .error e
    | .ok p => .ok (p, c)

/-- The member `popFront()`. -/
def popFront (c : Circular α) : Except Fault (Circular α) :=
  if c.isEmpty then .error .assertion
  else
    let c1 := { c with _size := c._size - 1 }
    let c2 := { c1 with _front := c1._front + 1 }
    -- Handle wrap around
    .ok (if c2._front == c2._capacity then { c2 with _front := 0 } else c2)

/-- The member `popBack()`. -/
def popBack (c : Circular α) : Except Fault (Circular α) :=
  if c.isEmpty then .error .assertion
  else
    let c1 := { c with _size := c._size - 1 }
    .ok (if c1._back == 0 then { c1 with _back := c1._capacity - 1 }
         else { c1 with _back := c1._back - 1 })

/-- The member `removeFront()`. -/
def removeFront (c : Circular α) : Except Fault (Circular α) :=
  if c.isEmpty then .error .assertion
  else if c._delete then
    match load c._data c._front with
    | .error e => .error e
    | .ok p => popFront { c with deleted := c.deleted ++ [p] }
  else popFront c

/-- The member `removeBack()`. -/
def removeBack (c : Circular α) : Except Fault (Circular α) :=
  if c.isEmpty then .error .assertion
  else
    match popBack c with
    | .error e => .error e
    | .ok c1 =>
      if c1._delete then
        match load c1._data c1._back with
        | .error e => .error e
        | .ok p => .ok { c1 with deleted := c1.deleted ++ [p] }
      else .ok c1

/-- The member `clear()`: the loop `while (!isEmpty()) removeFront();`. -/
def clear (c : Circular α) : Except Fault (Circular α) :=
  if c.isEmpty then .ok c
  else
    match _h : removeFront c with
    | .error e => .error e
    | .ok c1 => clear c1
termination_by c._size
decreasing_by
  simp only [removeFront, popFront, isEmpty, load] at _h
  repeat' split at _h
  all_goals first
    | contradiction
    | (simp only [Except.ok.injEq] at _h; subst _h; simp_all; omega)

/-- The loop `while (this->_size > capacity) removeFront();` of `resize`. -/
def resizeEvict (capacity : Nat) (c : Circular α) : Except Fault (Circular α) :=
  if c._size > capacity then
    match _h : removeFront c with
    | .error e => .error e
    | .ok c1 => resizeEvict capacity c1
  else .ok c
termination_by c._size
decreasing_by
  simp only [removeFront, popFront, isEmpty, load] at _h
  repeat' split at _h
  all_goals first
    | contradiction
    | (simp only [Except.ok.injEq] at _h; subst _h; simp_all; omega)

/-- The part of `resize` after its loop: the new array
`new Element*[capacity]()`, the copy, and the update of the fields. -/
def resizeCopy (c1 : Circular α) (capacity : Nat) : Except Fault (Circular α) :=
  let temp : List (Ptr α) := List.replicate capacity none
  let r : Except Fault (Circular α × List (Ptr α)) :=
    if c1._size > 0 then
      if c1._front < c1._back then
        match memcpy temp 0 c1._data c1._front c1._size with
        | .error e => .error e
        | .ok t1 => .ok ({ c1 with _front := 0, _back := c1._size }, t1)
      else if c1._front >= c1._back then
        let nWrapAround := c1._capacity - c1._front
        match memcpy temp 0 c1._data c1._front nWrapAround with
        | .error e => .error e
        | .ok t1 =>
          match memcpy t1 nWrapAround c1._data 0 c1._back with
          | .error e => .error e
          | .ok t2 => .ok ({ c1 with _front := 0, _back := c1._size }, t2)
      else .ok (c1, temp)
    else .ok ({ c1 with _front := 0, _back := 0 }, temp)
  match r with
  | .error e => .error e
  | .ok (c2, t) => .ok { c2 with _capacity := capacity, _data := t }

/-- The member `resize(capacity)`: the assertion, the loop, then the copy. -/
def resize (c : Circular α) (capacity : Nat) : Except Fault (Circular α) :=
  if capacity > 0 then
    match resizeEvict capacity c with
    | .error e => .error e
    | .ok c1 => resizeCopy c1 capacity
  else .error .assertion

/-- The member `operator[]`. -/
def operatorIndex (c : Circular α) (i : Nat) : Except Fault (Ptr α × Circular α) :=
  if i >= c.size then .ok (none, c)
  else
    let idx := i + c._front
    let idx1 := if idx >= c._capacity then idx - c._capacity else idx
    match load c._data idx1 with
    | .error e => .error e
    | .ok p => .ok (p, c)

end Circular

namespace Circular

variable {α : Type}

/-- The destructor `~Circular`: the loop `while (this->_size > 0) removeBack();`. -/
def destroyLoop (c : Circular α) : Except Fault (Circular α) :=
  if c._size > 0 then
    match _h : removeBack c with
    | .error e => .error e
    | .ok c1 => destroyLoop c1
  else .ok c
termination_by c._size
decreasing_by
  rename_i hpos
  simp only [removeBack, popBack, isEmpty] at _h
  have hne : (c._size == 0) = false := by simp; omega
  simp only [hne] at _h
  simp only [Bool.false_eq_true, if_false] at _h
  by_cases hb : (c._back == 0) = true
  · simp only [hb, if_true] at _h
    repeat' split at _h
    all_goals first
      | contradiction
      | (simp only [Except.ok.injEq] at _h; subst _h; simp only []; omega)
  · simp only [hb, if_false] at _h
    repeat' split at _h
    all_goals first
      | contradiction
      | (simp only [Except.ok.injEq] at _h; subst _h; simp only []; omega)

/-- The destructor `~Circular`; `delete[] this->_data` leaves no storage. -/
def destroy (c : Circular α) : Except Fault (Circular α) :=
  match destroyLoop c with
  | .error e => .error e
  | .ok c1 => .ok { c1 with _data := [] }

/-- The constructor call `Circular(capacity)`: the argument `deleteWhenDone` is
omitted and takes its default `true`. -/
def newOwning (capacity : Nat) (uninit : Nat → Ptr α) : Except Fault (Circular α) :=
  new capacity true uninit

/-- The constructor `Circular() : Circular(1) {}`. -/
def newDefault (uninit : Nat → Ptr α) : Except Fault (Circular α) :=
  newOwning 1 uninit

/-! ## The buffer at the point where a call stops

The four calls below again, statement by statement, now yielding the buffer as
the call leaves it also when the call stops at a fault. -/

/-- The member `popFront()`, with the buffer as the call leaves it. -/
def popFrontObs (c : Circular α) : Except Fault Unit × Circular α :=
  if c.isEmpty then (.error .assertion, c)
  else
    let c1 := { c with _size := c._size - 1 }
    let c2 := { c1 with _front := c1._front + 1 }
    (.ok (), if c2._front == c2._capacity then { c2 with _front := 0 } else c2)

/-- The member `popBack()`, with the buffer as the call leaves it. -/
def popBackObs (c : Circular α) : Except Fault Unit × Circular α :=
  if c.isEmpty then (.error .assertion, c)
  else
    let c1 := { c with _size := c._size - 1 }
    (.ok (), if c1._back == 0 then { c1 with _back := c1._capacity - 1 }
             else { c1 with _back := c1._back - 1 })

/-- The member `removeFront()`, with the buffer as the call leaves it. -/
def removeFrontObs (c : Circular α) : Except Fault Unit × Circular α :=
  if c.isEmpty then (.error .assertion, c)
  else if c._delete then
    match load c._data c._front with
    | .error e => (.error e, c)
    | .ok p => popFrontObs { c with deleted := c.deleted ++ [p] }
  else popFrontObs c

/-- The member `removeBack()`, with the buffer as the call leaves it. -/
def removeBackObs (c : Circular α) : Except Fault Unit × Circular α :=
  if c.isEmpty then (.error .assertion, c)
  else
    match popBackObs c with
    | (.error e, c1) => (.error e, c1)
    | (.ok _, c1) =>
      if c1._delete then
        match load c1._data c1._back with
        | .error e => (.error e, c1)
        | .ok p => (.ok (), { c1 with deleted := c1.deleted ++ [p] })
      else (.ok (), c1)

/-- Forgets the buffer a call leaves when it stops at a fault. -/
def forgetObs (r : Except Fault Unit × Circular α) : Except Fault (Circular α) :=
  match r with
  | (.error e, _) => .error e
  | (.ok _, c1) => .ok c1

/-! ## Vocabulary of the specification -/

/-- The value `at(i)` of the specification: what `operator[]` returns. -/
def elemAt (c : Circular α) (i : Nat) : Except Fault (Ptr α) :=
  match operatorIndex c i with
  | .error e => .error e
  | .ok (p, _) => .ok p

/-- All results of a list of calls, or the first fault. -/
def sequenceE {β : Type} : List (Except Fault β) → Except Fault (List β)
  | [] => .ok []
  | r :: rs =>
    match r with
    | .error e => .error e
    | .ok b =>
      match sequenceE rs with
      | .error e => .error e
      | .ok bs => .ok (b :: bs)

/-- The reads `[at(lo), ..., at(lo + n - 1)]`. -/
def readRange (c : Circular α) (lo n : Nat) : Except Fault (List (Ptr α)) :=
  sequenceE ((List.range n).map (fun i => elemAt c (lo + i)))

/-- The logical contents `[at(0), ..., at(size() - 1)]`. -/
def contents (c : Circular α) : Except Fault (List (Ptr α)) :=
  readRange c 0 c.size

/-- A well-formed state: `capacity > 0`, `size <= capacity`, `front < capacity`,
`back = (front + size) mod capacity`, and the storage has `capacity` slots. -/
def WF (c : Circular α) : Prop :=
  0 < c._capacity ∧ c._size ≤ c._capacity ∧ c._front < c._capacity ∧
    c._back = (c._front + c._size) % c._capacity ∧ c._data.length = c._capacity

instance (c : Circular α) : Decidable (WF c) := by
  unfold WF; infer_instance

/-- The content of the physical slot `(front + i) mod capacity`. -/
def slot (c : Circular α) (i : Nat) : Ptr α :=
  c._data.getD ((c._front + i) % c._capacity) none

/-- The buffer after `k` elements left through the front: `size` is `k` less,
`front` is `k` slots further round, and an owning buffer has deleted the
elements `at(0), ..., at(k-1)`, oldest first. -/
def evicted (c : Circular α) (k : Nat) : Circular α :=
  { c with _size := c._size - k
           _front := (c._front + k) % c._capacity
           deleted := if c._delete then c.deleted ++ (List.range k).map (slot c)
                      else c.deleted }

/-- The logical contents, read off the fields: the slots from `front` on,
`size` of them, going round. -/
def toList (c : Circular α) : List (Ptr α) :=
  (List.range c._size).map (slot c)

/-! ## Sequences of calls -/

/-- A call of one of the mutating member functions. -/
inductive Op (α : Type) where
  | pushBack (elt : Ptr α)
  | pushFront (elt : Ptr α)
  | popFront
  | popBack
  | removeFront
  | removeBack
  | clear
  | resize (capacity : Nat)
  deriving DecidableEq, Repr

/-- The calls other than `clear` and `resize`. -/
def Op.isEndOp : Op α → Bool
  | .clear => false
  | .resize _ => false
  | _ => true

/-- The calls `popFront`, `popBack`, `removeFront` and `removeBack`. -/
def Op.isRemoval : Op α → Bool
  | .popFront => true
  | .popBack => true
  | .removeFront => true
  | .removeBack => true
  | _ => false

/-- The number of pops and removes in a sequence of calls. -/
def numRemovals (ops : List (Op α)) : Nat :=
  (ops.filter Op.isRemoval).length

/-- Lifts a call without a return value to a step. -/
def stepVoid (r : Except Fault (Circular α)) : Except Fault (Option Bool × Circular α) :=
  match r with
  | .error e => .error e
  | .ok c1 => .ok (none, c1)

/-- One call on the buffer; a push yields the Boolean it returns. -/
def step (c : Circular α) : Op α → Except Fault (Option Bool × Circular α)
  | .pushBack elt =>
    match pushBack c elt with
    | .error e => .error e
    | .ok (b, c1) => .ok (some b, c1)
  | .pushFront elt =>
    match pushFront c elt with
    | .error e => .error e
    | .ok (b, c1) => .ok (some b, c1)
  | .popFront => stepVoid (popFront c)
  | .popBack => stepVoid (popBack c)
  | .removeFront => stepVoid (removeFront c)
  | .removeBack => stepVoid (removeBack c)
  | .clear => stepVoid (clear c)
  | .resize capacity => stepVoid (resize c capacity)

/-- The calls of a sequence in turn, until the first fault; yields the values
the pushes returned, in order, and the final buffer. -/
def run (c : Circular α) : List (Op α) → Except Fault (List Bool × Circular α)
  | [] => .ok ([], c)
  | op :: ops =>
    match step c op with
    | .error e => .error e
    | .ok (b, c1) =>
      match run c1 ops with
      | .error e => .error e
      | .ok (bs, c2) => .ok (b.toList ++ bs, c2)

/-- The reference bounded deque of the specification: the retained elements
front to back, and the capacity. -/
structure RefDeque (α : Type) where
  items : List (Ptr α)
  cap : Nat
  deriving DecidableEq, Repr

/-- One call on the reference deque, in the words of the specification:
`pushBack` appends iff `length < capacity`, `pushFront` prepends iff
`length < capacity`, `popFront`/`removeFront` drop the first element,
`popBack`/`removeBack` drop the last, `clear` empties, `resize(n)` keeps the
last `min(length, n)` elements and sets the capacity to `n`.  A pop or remove
on an empty deque and `resize(0)` are not allowed (`none`). -/
def refStep (r : RefDeque α) : Op α → Option (Option Bool × RefDeque α)
  | .pushBack elt =>
    if r.items.length < r.cap then some (some true, { r with items := r.items ++ [elt] })
    else some (some false, r)
  | .pushFront elt =>
    if r.items.length < r.cap then some (some true, { r with items := elt :: r.items })
    else some (some false, r)
  | .popFront => if r.items.isEmpty then none else some (none, { r with items := r.items.tail })
  | .removeFront => if r.items.isEmpty then none else some (none, { r with items := r.items.tail })
  | .popBack => if r.items.isEmpty then none else some (none, { r with items := r.items.dropLast })
  | .removeBack => if r.items.isEmpty then none else some (none, { r with items := r.items.dropLast })
  | .clear => some (none, { r with items := [] })
  | .resize n =>
    if n = 0 then none
    else some (none, { items := r.items.drop (r.items.length - min r.items.length n), cap := n })

/-- The calls of a sequence in turn on the reference deque. -/
def refRun (r : RefDeque α) : List (Op α) → Option (List Bool × RefDeque α)
  | [] => some ([], r)
  | op :: ops =>
    match refStep r op with
    | none => none
    | some (b, r1) =>
      match refRun r1 ops with
      | none => none
      | some (bs, r2) => some (b.toList ++ bs, r2)

/-- The buffer `c` holds what the reference deque `r` holds. -/
def Sim (c : Circular α) (r : RefDeque α) : Prop :=
  WF c ∧ c._capacity = r.cap ∧ toList c = r.items

/-- The call `removeFront()` applied `k` times in a row. -/
def removeFrontTimes : Nat → Circular α → Except Fault (Circular α)
  | 0, c => .ok c
  | k + 1, c =>
    match removeFront c with
    | .error e => .error e
    | .ok c1 => removeFrontTimes k c1

/-- A whole lifetime: construction, a sequence of calls, destruction.  Yields
the values the pushes returned and the pointers deleted, oldest first. -/
def lifetime (capacity : Nat) (deleteWhenDone : Bool) (uninit : Nat → Ptr α)
    (ops : List (Op α)) : Except Fault (List Bool × List (Ptr α)) :=
  match new capacity deleteWhenDone uninit with
  | .error e => .error e
  | .ok c0 =>
    match run c0 ops with
    | .error e => .error e
    | .ok (bs, c1) =>
      match destroy c1 with
      | .error e => .error e
      | .ok c2 => .ok (bs, c2.deleted)

/-! ## Example buffers -/

/-- The buffer of capacity 4 holding `[3, 4]` with `front = 2` and `back = 0`:
the occupied region ends at the end of the storage. -/
def exWrapped : Circular Nat :=
  { _delete := true, _capacity := 4, _front := 2, _back := 0, _size := 2,
    _data := [none, none, some 3, some 4], deleted := [] }

/-- A full buffer of capacity 3 holding `[1, 2, 3]` with `front = back = 1`:
the occupied region goes past the end of the storage. -/
def exFull : Circular Nat :=
  { _delete := true, _capacity := 3, _front := 1, _back := 1, _size := 3,
    _data := [some 3, some 1, some 2], deleted := [] }

/-- A sequence of calls without `clear` and `resize`, on a buffer of capacity 4. -/
def exOps : List (Op Nat) :=
  [.pushBack (some 1), .pushBack (some 2), .pushBack (some 3), .pushBack (some 4),
   .pushBack (some 5), .popFront, .pushBack (some 5), .pushFront (some 0), .removeBack]

/-- A sequence of calls with a `resize` to the current size, on a buffer of
capacity 1. -/
def exResizeOps : List (Op Nat) :=
  [.pushBack (some 1), .resize 1, .popFront, .pushBack (some 2)]

/-- An empty buffer of capacity 2 whose slots still hold stale pointers. -/
def exEmpty : Circular Nat :=
  { _delete := true, _capacity := 2, _front := 1, _back := 1, _size := 0,
    _data := [some 7, some 8], deleted := [] }

/-- A sequence of calls of an owning lifetime, with a `resize` to the current
size, on a buffer of capacity 1. -/
def exLifetimeOps : List (Op Nat) :=
  [.pushBack (some 1), .resize 1, .removeFront, .pushBack (some 2)]

/-- The fresh owning buffer `Circular(4)` with null slots. -/
def exFresh : Circular Nat :=
  { _delete := true, _capacity := 4, _front := 0, _back := 0, _size := 0,
    _data := [none, none, none, none], deleted := [] }

/-- A sequence of calls that ends with a shrinking `resize`. -/
def exShrinkOps : List (Op Nat) :=
  [.pushBack (some 1), .pushBack (some 2), .pushFront (some 3), .resize 2]

/-- The buffer `exFresh` after the calls `exShrinkOps`. -/
def exShrunk : Circular Nat :=
  { _delete := true, _capacity := 2, _front := 0, _back := 2, _size := 2,
    _data := [some 1, some 2], deleted := [some 3] }

end Circular

/-! ## Auxiliary facts -/

namespace Circular

variable {α : Type}

theorem mod_wrap (a c : Nat) (h : a < 2 * c) : a % c = if c ≤ a then a - c else a := by
  split
  · next hc =>
    rw [Nat.mod_eq_sub_mod hc]
    exact Nat.mod_eq_of_lt (by omega)
  · next hc => exact Nat.mod_eq_of_lt (by omega)

theorem load_of_lt {d : List (Ptr α)} {i : Nat} (h : i < d.length) :
    load d i = .ok (d.getD i none) := by
  simp [load, h, List.getD_eq_getElem]

theorem load_of_ge {d : List (Ptr α)} {i : Nat} (h : d.length ≤ i) :
    load d i = .error .outOfBounds := by
  simp [load, Nat.not_lt.mpr h]

theorem WF.back_lt {c : Circular α} (h : WF c) : c._back < c._capacity := by
  obtain ⟨h0, _, _, hb, _⟩ := h
  rw [hb]; exact Nat.mod_lt _ h0

theorem popFront_eq {c : Circular α} (hs : 0 < c._size) (hf : c._front < c._capacity) :
    popFront c = .ok { c with _size := c._size - 1,
                              _front := (c._front + 1) % c._capacity } := by
  have hne : (c._size == 0) = false := by simp; omega
  rw [mod_wrap _ _ (by omega)]
  simp only [popFront, isEmpty, hne, Bool.false_eq_true, if_false, beq_iff_eq]
  by_cases h : c._front + 1 = c._capacity
  · simp [h]
  · have : ¬ c._capacity ≤ c._front + 1 := by omega
    simp [h, this]

theorem popBack_eq {c : Circular α} (hs : 0 < c._size) (hb : c._back < c._capacity) :
    popBack c = .ok { c with _size := c._size - 1,
                             _back := (c._back + c._capacity - 1) % c._capacity } := by
  have hne : (c._size == 0) = false := by simp; omega
  rw [mod_wrap _ _ (by omega)]
  simp only [popBack, isEmpty, hne, Bool.false_eq_true, if_false, beq_iff_eq]
  by_cases h : c._back = 0
  · have : ¬ c._capacity ≤ c._capacity - 1 := by omega
    simp [h, this]
  · have : c._capacity ≤ c._back + c._capacity - 1 := by omega
    simp [h, this]; omega

theorem wrapIndex_eq {cap f i : Nat} (hf : f < cap) (hi : i ≤ cap) :
    (if i + f ≥ cap then i + f - cap else i + f) = (f + i) % cap := by
  rw [mod_wrap _ _ (by omega)]
  by_cases h : cap ≤ f + i
  · have h2 : i + f ≥ cap := by omega
    simp only [h, h2, if_true]; omega
  · have h2 : ¬ i + f ≥ cap := by omega
    simp only [h, h2, if_false]; omega

theorem operatorIndex_of_lt_aux {c : Circular α} (hf : c._front < c._capacity)
    (hs : c._size ≤ c._capacity) (hl : c._data.length = c._capacity) {i : Nat}
    (hi : i < c._size) : operatorIndex c i = .ok (slot c i, c) := by
  have hlt : (c._front + i) % c._capacity < c._data.length := by
    rw [hl]; exact Nat.mod_lt _ (by omega)
  have hnot : ¬ i ≥ c._size := by omega
  simp only [operatorIndex, size, hnot, if_false, wrapIndex_eq hf (by omega : i ≤ c._capacity),
    load_of_lt hlt, slot]

theorem operatorIndex_of_lt {c : Circular α} (hwf : WF c) {i : Nat} (hi : i < c._size) :
    operatorIndex c i = .ok (slot c i, c) :=
  operatorIndex_of_lt_aux hwf.2.2.1 hwf.2.1 hwf.2.2.2.2 hi

theorem operatorIndex_of_ge (c : Circular α) {i : Nat} (hi : c._size ≤ i) :
    operatorIndex c i = .ok (none, c) := by
  simp [operatorIndex, size, hi]

theorem elemAt_of_lt {c : Circular α} (hwf : WF c) {i : Nat} (hi : i < c._size) :
    elemAt c i = .ok (slot c i) := by
  simp [elemAt, operatorIndex_of_lt hwf hi]

theorem elemAt_of_ge (c : Circular α) {i : Nat} (hi : c._size ≤ i) :
    elemAt c i = .ok none := by
  simp [elemAt, operatorIndex_of_ge c hi]

theorem sequenceE_map_ok {β γ : Type} (f : γ → Except Fault β) (g : γ → β) (l : List γ)
    (h : ∀ x ∈ l, f x = .ok (g x)) : sequenceE (l.map f) = .ok (l.map g) := by
  induction l with
  | nil => rfl
  | cons a t ih =>
    have ha := h a (by simp)
    have ht := ih (fun x hx => h x (by simp [hx]))
    simp [sequenceE, ha, ht]

theorem readRange_eq {c : Circular α} (hwf : WF c) {lo n : Nat} (h : lo + n ≤ c._size) :
    readRange c lo n = .ok ((List.range n).map (fun i => slot c (lo + i))) := by
  unfold readRange
  apply sequenceE_map_ok
  intro i hi
  have := List.mem_range.mp hi
  exact elemAt_of_lt hwf (by omega)

theorem slot_eq_get {c : Circular α} {i : Nat}
    (h : (c._front + i) % c._capacity < c._data.length) :
    slot c i = c._data.get ⟨(c._front + i) % c._capacity, h⟩ := by
  simp [slot, List.getD_eq_getElem, h]

theorem front_of_pos {c : Circular α} (hwf : WF c) (hs : 0 < c._size) :
    front c = .ok (slot c 0, c) := by
  obtain ⟨h0, _, hf, _, hl⟩ := hwf
  have hne : (c._size == 0) = false := by simp; omega
  have hlt : c._front < c._data.length := by omega
  simp [front, isEmpty, hne, load_of_lt hlt, slot, Nat.mod_eq_of_lt hf]

theorem back_index_eq {c : Circular α} (hwf : WF c) (hs : 0 < c._size) :
    (if c._back == 0 then c._capacity - 1 else c._back - 1)
      = (c._front + (c._size - 1)) % c._capacity ∧
    (c._back + c._capacity - 1) % c._capacity = (c._front + (c._size - 1)) % c._capacity := by
  obtain ⟨h0, hsz, hf, hb, hl⟩ := hwf
  rw [mod_wrap _ _ (by omega)] at hb
  rw [mod_wrap (c._front + (c._size - 1)) _ (by omega)]
  have hbl : c._back < c._capacity := by split at hb <;> omega
  rw [mod_wrap (c._back + c._capacity - 1) _ (by omega)]
  simp only [beq_iff_eq]
  constructor
  · split at hb <;> split <;> split <;> omega
  · split at hb <;> split <;> split <;> omega

theorem back_of_pos {c : Circular α} (hwf : WF c) (hs : 0 < c._size) :
    back c = .ok (slot c (c._size - 1), c) := by
  have hidx := (back_index_eq hwf hs).1
  obtain ⟨h0, _, hf, _, hl⟩ := hwf
  have hne : (c._size == 0) = false := by simp; omega
  have hlt : (c._front + (c._size - 1)) % c._capacity < c._data.length := by
    rw [hl]; exact Nat.mod_lt _ h0
  simp only [back, isEmpty, hne, Bool.false_eq_true, if_false, hidx, load_of_lt hlt, slot]

theorem removeFront_eq {c : Circular α} (hwf : WF c) (hs : 0 < c._size) :
    removeFront c = .ok { c with _size := c._size - 1,
                                 _front := (c._front + 1) % c._capacity,
                                 deleted := if c._delete then c.deleted ++ [slot c 0]
                                            else c.deleted } := by
  obtain ⟨h0, _, hf, _, hl⟩ := hwf
  have hne : (c._size == 0) = false := by simp; omega
  have hlt : c._front < c._data.length := by omega
  have hslot : c._data.getD c._front none = slot c 0 := by
    simp [slot, Nat.mod_eq_of_lt hf]
  by_cases hd : c._delete = true
  · simp only [removeFront, isEmpty, hne, hd, Bool.false_eq_true, if_false, if_true,
      load_of_lt hlt, hslot]
    rw [popFront_eq (by exact hs) (by exact hf)]
  · have hd2 : c._delete = false := by simpa using hd
    simp only [removeFront, isEmpty, hne, hd2, Bool.false_eq_true, if_false,
      popFront_eq hs hf]

theorem removeBack_eq {c : Circular α} (hwf : WF c) (hs : 0 < c._size) :
    removeBack c = .ok { c with _size := c._size - 1,
                                _back := (c._back + c._capacity - 1) % c._capacity,
                                deleted := if c._delete then c.deleted ++ [slot c (c._size - 1)]
                                           else c.deleted } := by
  have hidx := (back_index_eq hwf hs).2
  have hbl := hwf.back_lt
  obtain ⟨h0, _, hf, _, hl⟩ := hwf
  have hne : (c._size == 0) = false := by simp; omega
  have hlt : (c._front + (c._size - 1)) % c._capacity < c._data.length := by
    rw [hl]; exact Nat.mod_lt _ h0
  by_cases hd : c._delete = true
  · simp only [removeBack, isEmpty, hne, Bool.false_eq_true, if_false, popBack_eq hs hbl, hd,
      if_true, hidx, load_of_lt hlt, slot]
  · have hd2 : c._delete = false := by simpa using hd
    simp only [removeBack, isEmpty, hne, Bool.false_eq_true, if_false, popBack_eq hs hbl, hd2]

theorem elemAt_of_lt_aux {c : Circular α} (hf : c._front < c._capacity)
    (hs : c._size ≤ c._capacity) (hl : c._data.length = c._capacity) {i : Nat}
    (hi : i < c._size) : elemAt c i = .ok (slot c i) := by
  simp [elemAt, operatorIndex_of_lt_aux hf hs hl hi]

theorem slot_shift {c c1 : Circular α} (k : Nat) (hd : c1._data = c._data)
    (hc : c1._capacity = c._capacity) (hf : c1._front = (c._front + k) % c._capacity)
    (i : Nat) : slot c1 i = slot c (k + i) := by
  simp only [slot, hd, hc, hf, Nat.mod_add_mod, Nat.add_assoc]

theorem slot_same {c c1 : Circular α} (hd : c1._data = c._data)
    (hc : c1._capacity = c._capacity) (hf : c1._front = c._front)
    (i : Nat) : slot c1 i = slot c i := by
  simp only [slot, hd, hc, hf]

theorem WF.removeFront {c : Circular α} (hwf : WF c) (hs : 0 < c._size) :
    WF (evicted c 1) := by
  obtain ⟨h0, hsz, hf, hb, hl⟩ := hwf
  refine ⟨h0, by simp only [evicted]; omega, Nat.mod_lt _ h0, ?_, hl⟩
  simp only [evicted, hb, Nat.mod_add_mod]
  congr 1; omega

theorem removeFront_eq_evicted {c : Circular α} (hwf : WF c) (hs : 0 < c._size) :
    removeFront c = .ok (evicted c 1) := by
  rw [removeFront_eq hwf hs]
  simp [evicted, List.range_succ]

theorem evicted_zero {c : Circular α} (hwf : WF c) : evicted c 0 = c := by
  obtain ⟨h0, hsz, hf, hb, hl⟩ := hwf
  cases c
  simp_all [evicted, Nat.mod_eq_of_lt]

theorem evicted_succ (c : Circular α) (k : Nat) (hk : k < c._size) :
    evicted (evicted c 1) k = evicted c (k + 1) := by
  have hslot : ∀ a, slot (evicted c 1) a = slot c (1 + a) := by
    intro a
    simp only [evicted, slot, Nat.mod_add_mod, Nat.add_assoc]
  have hfront : ((c._front + 1) % c._capacity + k) % c._capacity
      = (c._front + (k + 1)) % c._capacity := by
    rw [Nat.mod_add_mod, Nat.add_assoc, Nat.add_comm 1 k]
  have hsize : c._size - 1 - k = c._size - (k + 1) := by omega
  have hdel : (List.range (k + 1)).map (slot c)
      = (List.range 1).map (slot c) ++ (List.range k).map (slot (evicted c 1)) := by
    rw [Nat.add_comm k 1, List.range_add, List.map_append, List.map_map]
    congr 1
    apply List.map_congr_left
    intro a _
    simp only [Function.comp, hslot]
  simp only [hslot] at hdel
  by_cases hd : c._delete = true
  · simp only [evicted, hd, if_true, hfront, hsize, hdel, List.append_assoc, hslot]
  · have hd2 : c._delete = false := by simpa using hd
    simp only [evicted, hd2, Bool.false_eq_true, if_false, hfront, hsize]

theorem resizeEvict_eq (n : Nat) : ∀ (k : Nat) (c : Circular α), WF c → c._size - n = k →
    resizeEvict n c = .ok (evicted c k) := by
  intro k
  induction k with
  | zero =>
    intro c hwf hk
    rw [resizeEvict, evicted_zero hwf]
    have : ¬ c._size > n := by omega
    simp [this]
  | succ k ih =>
    intro c hwf hk
    have hs : 0 < c._size := by omega
    have hgt : c._size > n := by omega
    rw [resizeEvict]
    simp only [hgt, if_true]
    split
    · next e he => rw [removeFront_eq_evicted hwf hs] at he; cases he
    · next c1 he =>
      rw [removeFront_eq_evicted hwf hs] at he
      cases he
      rw [ih _ (hwf.removeFront hs) (by simp only [evicted]; omega), evicted_succ c k (by omega)]

theorem take_drop_eq_map (d : List (Ptr α)) (f s : Nat) (h : f + s ≤ d.length) :
    (d.drop f).take s = (List.range s).map (fun i => d.getD (f + i) none) := by
  apply List.ext_getElem
  · simp; omega
  · intro i h1 h2
    simp at h1 h2
    simp [List.getD_eq_getElem, show f + i < d.length by omega]

theorem memcpy_fresh (n : Nat) (d : List (Ptr α)) (f s : Nat) (h : f + s ≤ d.length)
    (hn : s ≤ n) :
    memcpy (List.replicate n none) 0 d f s
      = .ok ((List.range s).map (fun i => d.getD (f + i) none) ++ List.replicate (n - s) none) := by
  simp [memcpy, h, hn, take_drop_eq_map d f s h]

theorem memcpy_second (A : List (Ptr α)) (m : Nat) (d : List (Ptr α)) (b : Nat)
    (hb : b ≤ d.length) (hm : b ≤ m) :
    memcpy (A ++ List.replicate m none) A.length d 0 b
      = .ok (A ++ (List.range b).map (fun i => d.getD i none) ++ List.replicate (m - b) none) := by
  have h1 : A.length + b ≤ (A ++ List.replicate m (none : Ptr α)).length := by simp; omega
  have h2 := take_drop_eq_map d 0 b (by omega)
  simp only [Nat.zero_add] at h2
  simp only [memcpy, Nat.zero_add, hb, h1, and_self, if_true, h2, List.take_left',
    List.drop_append, List.drop_replicate]

theorem range_map_slot_contig {c : Circular α} (h : c._front + c._size ≤ c._capacity) :
    (List.range c._size).map (fun i => c._data.getD (c._front + i) none)
      = (List.range c._size).map (slot c) := by
  apply List.map_congr_left
  intro i hi
  have := List.mem_range.mp hi
  simp only [slot, Nat.mod_eq_of_lt (show c._front + i < c._capacity by omega)]

theorem range_map_slot_wrap {c : Circular α} {b : Nat} (hf : c._front < c._capacity)
    (hbf : b ≤ c._front) (h : c._capacity - c._front + b = c._size) :
    (List.range (c._capacity - c._front)).map (fun i => c._data.getD (c._front + i) none)
        ++ (List.range b).map (fun i => c._data.getD i none)
      = (List.range c._size).map (slot c) := by
  rw [← h, List.range_add, List.map_append, List.map_map]
  congr 1
  · apply List.map_congr_left
    intro i hi
    have := List.mem_range.mp hi
    simp only [slot, Nat.mod_eq_of_lt (show c._front + i < c._capacity by omega)]
  · apply List.map_congr_left
    intro i hi
    have := List.mem_range.mp hi
    simp only [slot, Function.comp]
    rw [mod_wrap _ _ (by omega)]
    have : c._capacity ≤ c._front + (c._capacity - c._front + i) := by omega
    simp only [this, if_true]
    congr 1; omega

theorem resizeCopy_eq {c : Circular α} (hwf : WF c) {n : Nat} (hn : c._size ≤ n) :
    resizeCopy c n = .ok { c with _capacity := n, _front := 0, _back := c._size,
                                  _data := (List.range c._size).map (slot c)
                                    ++ List.replicate (n - c._size) none } := by
  obtain ⟨h0, hsz, hf, hb, hl⟩ := hwf
  rw [mod_wrap _ _ (by omega)] at hb
  by_cases hs : c._size > 0
  · by_cases hfb : c._front < c._back
    · have hc : c._front + c._size ≤ c._capacity := by split at hb <;> omega
      simp only [resizeCopy, hs, hfb, if_true,
        memcpy_fresh n c._data c._front c._size (by omega) hn, range_map_slot_contig hc]
    · have hge : c._front ≥ c._back := by omega
      have hc : c._capacity - c._front + c._back = c._size := by split at hb <;> omega
      clear hb
      have hlen : ((List.range (c._capacity - c._front)).map
          (fun i => c._data.getD (c._front + i) none)).length = c._capacity - c._front := by
        simp
      have h2 := memcpy_second ((List.range (c._capacity - c._front)).map
          (fun i => c._data.getD (c._front + i) none)) (n - (c._capacity - c._front))
          c._data c._back (by omega) (by omega)
      rw [hlen] at h2
      simp only [resizeCopy, hs, hfb, hge, if_true, if_false,
        memcpy_fresh n c._data c._front (c._capacity - c._front) (by omega) (by omega), h2,
        range_map_slot_wrap hf hge hc]
      have hrest : n - (c._capacity - c._front) - c._back = n - c._size := by omega
      rw [hrest]
  · have hz : c._size = 0 := by omega
    simp [resizeCopy, hz]

theorem resize_eq {c : Circular α} (hwf : WF c) {n : Nat} (hn : 0 < n) :
    resize c n = .ok { evicted c (c._size - n) with
      _capacity := n, _front := 0, _back := c._size - (c._size - n),
      _data := (List.range (c._size - (c._size - n))).map (fun i => slot c (c._size - n + i))
                ++ List.replicate (n - (c._size - (c._size - n))) none } := by
  have hwf1 : WF (evicted c (c._size - n)) := by
    obtain ⟨h0, hsz, hf, hb, hl⟩ := hwf
    refine ⟨h0, by simp only [evicted]; omega, Nat.mod_lt _ h0, ?_, hl⟩
    simp only [evicted, hb, Nat.mod_add_mod]
    congr 1; omega
  have hslot : slot (evicted c (c._size - n)) = fun i => slot c (c._size - n + i) := by
    funext i
    simp only [evicted, slot, Nat.mod_add_mod, Nat.add_assoc]
  have hcopy := @resizeCopy_eq α _ hwf1 n (by simp only [evicted]; omega)
  simp only [resize, hn, if_true, resizeEvict_eq n _ c hwf rfl, hcopy]
  simp only [hslot]
  rfl

theorem resize_facts {c : Circular α} (hwf : WF c) {n : Nat} (hn : 0 < n) :
    ∃ c1, resize c n = .ok c1 ∧ c1._capacity = n ∧ c1._size = c._size - (c._size - n) ∧
      c1._front = 0 ∧ c1._back = c1._size ∧ c1._delete = c._delete ∧
      c1._data.length = n ∧
      c1.deleted = (if c._delete then c.deleted ++ (List.range (c._size - n)).map (slot c)
                    else c.deleted) ∧
      ∀ i, i < c1._size → elemAt c1 i = .ok (slot c (c._size - n + i)) := by
  refine ⟨_, resize_eq hwf hn, rfl, rfl, rfl, rfl, rfl, ?_, rfl, ?_⟩
  · simp only [evicted, List.length_append, List.length_map, List.length_range,
      List.length_replicate]
    have := hwf.2.1
    omega
  · intro i hi
    simp only [evicted] at hi
    refine Eq.trans (elemAt_of_lt_aux ?_ ?_ ?_ ?_) ?_
    · exact hn
    · simp only [evicted]; omega
    · simp only [evicted, List.length_append, List.length_map, List.length_range,
        List.length_replicate]
      omega
    · exact hi
    · simp only [slot, evicted, Nat.zero_add, Nat.mod_eq_of_lt (show i < n by omega)]
      rw [List.getD_append _ _ _ _ (by simpa using hi)]
      simp [List.getD_eq_getElem, hi, slot]

theorem mod_add_ne {cap f i s : Nat} (hf : f < cap) (hi : i < s) (hs : s < cap) :
    (f + s) % cap ≠ (f + i) % cap := by
  rw [mod_wrap (f + s) _ (by omega), mod_wrap (f + i) _ (by omega)]
  split <;> split <;> omega

theorem toList_length (c : Circular α) : (toList c).length = c._size := by
  simp [toList]

theorem contents_eq {c : Circular α} (hwf : WF c) : contents c = .ok (toList c) := by
  have h := @readRange_eq α c hwf 0 c._size (by omega)
  simp only [Nat.zero_add] at h
  exact h

theorem pushBack_ok {c : Circular α} (hwf : WF c) (hlt : c._size < c._capacity) (x : Ptr α) :
    ∃ c1, pushBack c x = .ok (true, c1) ∧ WF c1 ∧ c1._capacity = c._capacity ∧
      c1._size = c._size + 1 ∧ toList c1 = toList c ++ [x] := by
  have hbl := hwf.back_lt
  obtain ⟨h0, hsz, hf, hb, hl⟩ := hwf
  have hfull : (c._size == c._capacity) = false := by simp; omega
  have hstore : store c._data c._back x = .ok (c._data.set c._back x) := by
    simp [store, hl, hbl]
  refine ⟨{ c with _data := c._data.set c._back x, _size := c._size + 1,
                    _back := (c._back + 1) % c._capacity }, ?_, ?_, rfl, rfl, ?_⟩
  · rw [mod_wrap _ _ (by omega)]
    simp only [pushBack, isFull, hfull, Bool.false_eq_true, if_false, hstore, beq_iff_eq]
    by_cases h : c._back + 1 = c._capacity
    · simp [h]
    · have : ¬ c._capacity ≤ c._back + 1 := by omega
      simp [h, this]
  · refine ⟨h0, by simp only []; omega, hf, ?_, by simp [hl]⟩
    simp only [hb, Nat.mod_add_mod, Nat.add_assoc]
  · simp only [toList, List.range_succ, List.map_append, List.map_cons, List.map_nil]
    congr 1
    · apply List.map_congr_left
      intro i hi
      have hi := List.mem_range.mp hi
      simp only [slot, List.getD_eq_getElem?_getD]
      rw [List.getElem?_set_ne]
      rw [hb]
      exact mod_add_ne hf hi hlt
    · simp only [slot, List.getD_eq_getElem?_getD, ← hb]
      rw [List.getElem?_set_self (by omega)]
      rfl

theorem pushFront_ok {c : Circular α} (hwf : WF c) (hlt : c._size < c._capacity) (x : Ptr α) :
    ∃ c1, pushFront c x = .ok (true, c1) ∧ WF c1 ∧ c1._capacity = c._capacity ∧
      c1._size = c._size + 1 ∧ toList c1 = x :: toList c := by
  obtain ⟨h0, hsz, hf, hb, hl⟩ := hwf
  have hfull : (c._size == c._capacity) = false := by simp; omega
  have hfl : (c._front + c._capacity - 1) % c._capacity < c._capacity := Nat.mod_lt _ h0
  have hstore : store c._data ((c._front + c._capacity - 1) % c._capacity) x
      = .ok (c._data.set ((c._front + c._capacity - 1) % c._capacity) x) := by
    simp [store, hl, hfl]
  have hstep : ((c._front + c._capacity - 1) % c._capacity + 1) % c._capacity = c._front := by
    rw [Nat.mod_add_mod, show c._front + c._capacity - 1 + 1 = c._front + c._capacity by omega,
      Nat.add_mod_right, Nat.mod_eq_of_lt hf]
  refine ⟨{ c with _size := c._size + 1,
                    _front := (c._front + c._capacity - 1) % c._capacity,
                    _data := c._data.set ((c._front + c._capacity - 1) % c._capacity) x },
    ?_, ?_, rfl, rfl, ?_⟩
  · have hidx : (if (c._front != 0) = true then c._front - 1 else c._capacity - 1)
        = (c._front + c._capacity - 1) % c._capacity := by
      rw [mod_wrap _ _ (by omega)]
      by_cases h : c._front = 0
      · have : ¬ c._capacity ≤ c._capacity - 1 := by omega
        simp [h, this]
      · have : c._capacity ≤ c._front + c._capacity - 1 := by omega
        simp [h, this]; omega
    simp only [pushFront, isFull, hfull, Bool.false_eq_true, if_false]
    by_cases h : (c._front != 0) = true
    · simp only [h, if_true] at hidx
      simp only [h, if_true, hidx, hstore]
    · simp only [h, Bool.false_eq_true, if_false] at hidx
      simp only [h, Bool.false_eq_true, if_false, hidx, hstore]
  · refine ⟨h0, by simp only []; omega, hfl, ?_, by simp [hl]⟩
    simp only [hb]
    have h1 := Nat.mod_add_mod ((c._front + c._capacity - 1) % c._capacity + 1) c._capacity
      c._size
    rw [hstep] at h1
    rw [h1]
    congr 1
    omega
  · simp only [toList, List.range_succ_eq_map, List.map_cons, List.map_map]
    congr 1
    · simp only [slot, Nat.add_zero, Nat.mod_mod, List.getD_eq_getElem?_getD]
      rw [List.getElem?_set_self (by omega)]
      rfl
    · apply List.map_congr_left
      intro i hi
      have hi := List.mem_range.mp hi
      have hidx : ((c._front + c._capacity - 1) % c._capacity + (i + 1)) % c._capacity
          = (c._front + i) % c._capacity := by
        rw [Nat.add_comm i 1, ← Nat.add_assoc, ← Nat.mod_add_mod, hstep]
      simp only [slot, Function.comp, Nat.succ_eq_add_one, hidx, List.getD_eq_getElem?_getD]
      rw [List.getElem?_set_ne]
      have h1 := @mod_add_ne c._capacity ((c._front + c._capacity - 1) % c._capacity) 0 (i + 1)
        hfl (by omega) (by omega)
      rw [hidx, Nat.add_zero, Nat.mod_mod] at h1
      exact fun h => h1 h.symm

theorem toList_congr {c c1 : Circular α} (hs : c1._size = c._size) (hf : c1._front = c._front)
    (hc : c1._capacity = c._capacity) (hd : c1._data = c._data) : toList c1 = toList c := by
  simp only [toList, hs]
  apply List.map_congr_left
  intro i _
  simp only [slot, hf, hc, hd]

theorem WF_congr {c c1 : Circular α} (hwf : WF c) (hs : c1._size = c._size)
    (hf : c1._front = c._front) (hb : c1._back = c._back)
    (hc : c1._capacity = c._capacity) (hd : c1._data = c._data) : WF c1 := by
  unfold WF at *
  rw [hs, hf, hb, hc, hd]
  exact hwf

theorem toList_evicted_one {c : Circular α} (hs : 0 < c._size) :
    toList (evicted c 1) = (toList c).tail := by
  obtain ⟨s, hs1⟩ : ∃ s, c._size = s + 1 := ⟨c._size - 1, by omega⟩
  have hslot : slot (evicted c 1) = slot c ∘ Nat.succ := by
    funext i
    simp only [evicted, slot, Nat.mod_add_mod, Nat.add_assoc, Function.comp, Nat.succ_eq_add_one,
      Nat.add_comm i 1]
  have hsz : (evicted c 1)._size = s := by simp only [evicted]; omega
  simp only [toList, hsz, hs1, List.range_succ_eq_map, List.map_cons, List.map_map,
    List.tail_cons, hslot]

theorem popFront_ok {c : Circular α} (hwf : WF c) (hs : 0 < c._size) :
    ∃ c1, popFront c = .ok c1 ∧ WF c1 ∧ c1._capacity = c._capacity ∧
      c1._size + 1 = c._size ∧ toList c1 = (toList c).tail := by
  refine ⟨_, popFront_eq hs hwf.2.2.1, ?_, rfl, by simp only []; omega, ?_⟩
  · exact WF_congr (hwf.removeFront hs) rfl rfl rfl rfl rfl
  · rw [← toList_evicted_one hs]
    exact toList_congr rfl rfl rfl rfl

theorem removeFront_ok {c : Circular α} (hwf : WF c) (hs : 0 < c._size) :
    ∃ c1, removeFront c = .ok c1 ∧ WF c1 ∧ c1._capacity = c._capacity ∧
      c1._size + 1 = c._size ∧ toList c1 = (toList c).tail :=
  ⟨_, removeFront_eq_evicted hwf hs, hwf.removeFront hs, rfl, by simp only [evicted]; omega,
    toList_evicted_one hs⟩

theorem WF.popBack {c : Circular α} (hwf : WF c) (hs : 0 < c._size) :
    WF { c with _size := c._size - 1, _back := (c._back + c._capacity - 1) % c._capacity } := by
  have hidx := (back_index_eq hwf hs).2
  obtain ⟨h0, hsz, hf, hb, hl⟩ := hwf
  exact ⟨h0, by simp only []; omega, hf, hidx, hl⟩

theorem toList_popBack {c c1 : Circular α} (hs : c1._size + 1 = c._size)
    (hf : c1._front = c._front) (hc : c1._capacity = c._capacity) (hd : c1._data = c._data) :
    toList c1 = (toList c).dropLast := by
  have hslot : slot c1 = slot c := by
    funext i
    simp only [slot, hf, hc, hd]
  simp only [toList, ← hs, List.range_succ, List.map_append, List.map_cons, List.map_nil,
    List.dropLast_concat, hslot]

theorem popBack_ok {c : Circular α} (hwf : WF c) (hs : 0 < c._size) :
    ∃ c1, popBack c = .ok c1 ∧ WF c1 ∧ c1._capacity = c._capacity ∧
      c1._size + 1 = c._size ∧ toList c1 = (toList c).dropLast := by
  refine ⟨_, popBack_eq hs hwf.back_lt, hwf.popBack hs, rfl, by simp only []; omega, ?_⟩
  exact toList_popBack (by simp only []; omega) rfl rfl rfl

theorem removeBack_ok {c : Circular α} (hwf : WF c) (hs : 0 < c._size) :
    ∃ c1, removeBack c = .ok c1 ∧ WF c1 ∧ c1._capacity = c._capacity ∧
      c1._size + 1 = c._size ∧ toList c1 = (toList c).dropLast := by
  refine ⟨_, removeBack_eq hwf hs, ?_, rfl, by simp only []; omega, ?_⟩
  · exact WF_congr (hwf.popBack hs) rfl rfl rfl rfl rfl
  · exact toList_popBack (by simp only []; omega) rfl rfl rfl

theorem Sim.size_eq {c : Circular α} {r : RefDeque α} (h : Sim c r) :
    c._size = r.items.length := by
  rw [← h.2.2, toList_length]

theorem step_sim {c : Circular α} {r : RefDeque α} (h : Sim c r) (op : Op α)
    (hop : op.isEndOp = true) :
    (step c op = .error .assertion ∧ refStep r op = none) ∨
    ∃ b c1 r1, step c op = .ok (b, c1) ∧ refStep r op = some (b, r1) ∧ Sim c1 r1 ∧
      r1.cap = r.cap ∧
      c1._size + (if op.isRemoval then 1 else 0) = c._size + b.toList.count true := by
  have hsize := h.size_eq
  obtain ⟨hwf, hcap, hl⟩ := h
  have hle := hwf.2.1
  have hempty : c._size = 0 → r.items.isEmpty = true := by
    intro h0
    rw [hsize] at h0
    simpa [List.isEmpty_iff] using List.length_eq_zero.mp h0
  have hnonempty : 0 < c._size → r.items.isEmpty = false := by
    intro h0
    rw [hsize] at h0
    cases hi : r.items with
    | nil => rw [hi] at h0; simp at h0
    | cons a t => rfl
  cases op with
  | pushBack x =>
    right
    by_cases hfull : c._size = c._capacity
    · refine ⟨some false, c, r, ?_, ?_, ⟨hwf, hcap, hl⟩, rfl, by simp [Op.isRemoval]⟩
      · simp [step, pushBack, isFull, hfull]
      · have : ¬ r.items.length < r.cap := by omega
        simp [refStep, this]
    · obtain ⟨c1, hp, hwf1, hc1, hs1, ht1⟩ := pushBack_ok hwf (by omega) x
      refine ⟨some true, c1, { r with items := r.items ++ [x] }, ?_, ?_,
        ⟨hwf1, by rw [hc1, hcap], by rw [ht1, hl]⟩, rfl, by simp [Op.isRemoval, hs1]⟩
      · simp [step, hp]
      · have : r.items.length < r.cap := by omega
        simp [refStep, this]
  | pushFront x =>
    right
    by_cases hfull : c._size = c._capacity
    · refine ⟨some false, c, r, ?_, ?_, ⟨hwf, hcap, hl⟩, rfl, by simp [Op.isRemoval]⟩
      · simp [step, pushFront, isFull, hfull]
      · have : ¬ r.items.length < r.cap := by omega
        simp [refStep, this]
    · obtain ⟨c1, hp, hwf1, hc1, hs1, ht1⟩ := pushFront_ok hwf (by omega) x
      refine ⟨some true, c1, { r with items := x :: r.items }, ?_, ?_,
        ⟨hwf1, by rw [hc1, hcap], by rw [ht1, hl]⟩, rfl, by simp [Op.isRemoval, hs1]⟩
      · simp [step, hp]
      · have : r.items.length < r.cap := by omega
        simp [refStep, this]
  | popFront =>
    by_cases hs : c._size = 0
    · left
      exact ⟨by simp [step, stepVoid, popFront, isEmpty, hs], by simp [refStep, hempty hs]⟩
    · right
      obtain ⟨c1, hp, hwf1, hc1, hs1, ht1⟩ := popFront_ok hwf (by omega)
      refine ⟨none, c1, { r with items := r.items.tail }, by simp [step, stepVoid, hp],
        by simp [refStep, hnonempty (by omega)],
        ⟨hwf1, by rw [hc1, hcap], by rw [ht1, hl]⟩, rfl, by simp [Op.isRemoval, hs1]⟩
  | removeFront =>
    by_cases hs : c._size = 0
    · left
      exact ⟨by simp [step, stepVoid, removeFront, isEmpty, hs], by simp [refStep, hempty hs]⟩
    · right
      obtain ⟨c1, hp, hwf1, hc1, hs1, ht1⟩ := removeFront_ok hwf (by omega)
      refine ⟨none, c1, { r with items := r.items.tail }, by simp [step, stepVoid, hp],
        by simp [refStep, hnonempty (by omega)],
        ⟨hwf1, by rw [hc1, hcap], by rw [ht1, hl]⟩, rfl, by simp [Op.isRemoval, hs1]⟩
  | popBack =>
    by_cases hs : c._size = 0
    · left
      exact ⟨by simp [step, stepVoid, popBack, isEmpty, hs], by simp [refStep, hempty hs]⟩
    · right
      obtain ⟨c1, hp, hwf1, hc1, hs1, ht1⟩ := popBack_ok hwf (by omega)
      refine ⟨none, c1, { r with items := r.items.dropLast }, by simp [step, stepVoid, hp],
        by simp [refStep, hnonempty (by omega)],
        ⟨hwf1, by rw [hc1, hcap], by rw [ht1, hl]⟩, rfl, by simp [Op.isRemoval, hs1]⟩
  | removeBack =>
    by_cases hs : c._size = 0
    · left
      exact ⟨by simp [step, stepVoid, removeBack, isEmpty, hs], by simp [refStep, hempty hs]⟩
    · right
      obtain ⟨c1, hp, hwf1, hc1, hs1, ht1⟩ := removeBack_ok hwf (by omega)
      refine ⟨none, c1, { r with items := r.items.dropLast }, by simp [step, stepVoid, hp],
        by simp [refStep, hnonempty (by omega)],
        ⟨hwf1, by rw [hc1, hcap], by rw [ht1, hl]⟩, rfl, by simp [Op.isRemoval, hs1]⟩
  | clear => simp [Op.isEndOp] at hop
  | resize n => simp [Op.isEndOp] at hop

theorem run_sim (ops : List (Op α)) : ∀ (c : Circular α) (r : RefDeque α), Sim c r →
    (∀ op ∈ ops, op.isEndOp = true) →
    (run c ops = .error .assertion ∧ refRun r ops = none) ∨
    ∃ bs c1 r1, run c ops = .ok (bs, c1) ∧ refRun r ops = some (bs, r1) ∧ Sim c1 r1 ∧
      r1.cap = r.cap ∧ c1._size + numRemovals ops = c._size + bs.count true := by
  induction ops with
  | nil =>
    intro c r h _
    exact Or.inr ⟨[], c, r, rfl, rfl, h, rfl, by simp [numRemovals]⟩
  | cons op ops ih =>
    intro c r h hops
    rcases step_sim h op (hops op (by simp)) with ⟨hs, hr⟩ | ⟨b, c1, r1, hs, hr, hsim, hcap, hcnt⟩
    · left
      exact ⟨by simp [run, hs], by simp [refRun, hr]⟩
    · rcases ih c1 r1 hsim (fun o ho => hops o (by simp [ho])) with
        ⟨hs2, hr2⟩ | ⟨bs, c2, r2, hs2, hr2, hsim2, hcap2, hcnt2⟩
      · left
        exact ⟨by simp [run, hs, hs2], by simp [refRun, hr, hr2]⟩
      · right
        refine ⟨b.toList ++ bs, c2, r2, by simp [run, hs, hs2], by simp [refRun, hr, hr2],
          hsim2, by rw [hcap2, hcap], ?_⟩
        have hnum : numRemovals (op :: ops)
            = (if op.isRemoval then 1 else 0) + numRemovals ops := by
          simp only [numRemovals, List.filter_cons]
          split <;> simp
          omega
        rw [hnum, List.count_append]
        omega

theorem new_sim (cap : Nat) (d : Bool) (uninit : Nat → Ptr α) (hcap : 0 < cap) :
    ∃ c0, new cap d uninit = .ok c0 ∧ Sim c0 ⟨[], cap⟩ ∧ c0._size = 0 ∧ c0._delete = d ∧
      c0.deleted = [] := by
  refine ⟨{ _delete := d, _capacity := cap, _front := 0, _back := 0, _size := 0,
            _data := (List.range cap).map uninit, deleted := [] }, ?_, ⟨⟨hcap, ?_, hcap, ?_, ?_⟩,
    rfl, ?_⟩, rfl, rfl, rfl⟩
  · simp only [new, gt_iff_lt, hcap, if_true]
  · exact Nat.zero_le _
  · simp
  · simp
  · simp [toList]

theorem refRun_pushBack (xs : List (Ptr α)) : ∀ r : RefDeque α,
    r.items.length + xs.length ≤ r.cap →
    refRun r (xs.map Op.pushBack)
      = some (List.replicate xs.length true, { r with items := r.items ++ xs }) := by
  induction xs with
  | nil => intro r _; simp [refRun]
  | cons x xs ih =>
    intro r h
    simp only [List.length_cons] at h
    have hlt : r.items.length < r.cap := by omega
    have := ih { r with items := r.items ++ [x] } (by simp; omega)
    simp [refRun, refStep, hlt, this, List.replicate_succ]

theorem refRun_pushFront (xs : List (Ptr α)) : ∀ r : RefDeque α,
    r.items.length + xs.length ≤ r.cap →
    refRun r (xs.map Op.pushFront)
      = some (List.replicate xs.length true, { r with items := xs.reverse ++ r.items }) := by
  induction xs with
  | nil => intro r _; simp [refRun]
  | cons x xs ih =>
    intro r h
    simp only [List.length_cons] at h
    have hlt : r.items.length < r.cap := by omega
    have := ih { r with items := x :: r.items } (by simp; omega)
    simp [refRun, refStep, hlt, this, List.replicate_succ]

theorem Sim.elemAt {c : Circular α} {r : RefDeque α} (h : Sim c r) (i : Nat)
    (hi : i < r.items.length) : elemAt c i = .ok (r.items.get ⟨i, hi⟩) := by
  have hs := h.size_eq
  rw [elemAt_of_lt h.1 (by omega)]
  have h2 : (toList c)[i]? = some (slot c i) := by
    simp [toList, List.getElem?_range (show i < c._size by omega)]
  rw [h.2.2, List.getElem?_eq_getElem hi] at h2
  simp only [Option.some.injEq] at h2
  rw [← h2, List.get_eq_getElem]

theorem isEndOp_pushBack (xs : List (Ptr α)) :
    ∀ op ∈ xs.map Op.pushBack, op.isEndOp = true := by
  intro op hop
  obtain ⟨x, _, rfl⟩ := List.mem_map.mp hop
  rfl

theorem isEndOp_pushFront (xs : List (Ptr α)) :
    ∀ op ∈ xs.map Op.pushFront, op.isEndOp = true := by
  intro op hop
  obtain ⟨x, _, rfl⟩ := List.mem_map.mp hop
  rfl

/-! ## The claims -/

/-- C1: the refinement fails on the code.  On a fresh `Circular(1)` the calls
`pushBack(1)`, `resize(1)`, `popFront()` succeed and leave `size == 0`,
`back == 1 == capacity` (the `resize` sets `back = size` without wrapping it);
the following `pushBack(2)` is accepted and writes slot `_data[1]` of a
one-slot array, while the reference deque ends holding `[2]`. -/
theorem resize_full_then_pushBack_faults :
    ∃ c0 c3, new 1 true (fun _ => none) = .ok c0 ∧
      run c0 (exResizeOps.take 3) = .ok ([true], c3) ∧
      c3._size = 0 ∧ c3._back = 1 ∧ c3._capacity = 1 ∧ c3._data.length = 1 ∧
      pushBack c3 (some 2) = .error .outOfBounds ∧
      run c0 exResizeOps = .error .outOfBounds ∧
      refRun ⟨[], 1⟩ exResizeOps = some ([true, true], ⟨[some 2], 1⟩) := by
  refine ⟨{ _delete := true, _capacity := 1, _front := 0, _back := 0, _size := 0,
            _data := [none], deleted := [] },
          { _delete := true, _capacity := 1, _front := 0, _back := 1, _size := 0,
            _data := [some 1], deleted := [] }, ?_, ?_, rfl, rfl, rfl, rfl, ?_, ?_, ?_⟩
  · decide
  · simp [exResizeOps, run, step, stepVoid, pushBack, popFront, resize, resizeEvict, resizeCopy,
      memcpy, store, isFull, isEmpty]
  · decide
  · simp [exResizeOps, run, step, stepVoid, pushBack, popFront, resize, resizeEvict, resizeCopy,
      memcpy, store, isFull, isEmpty]
  · decide

/-- C2: on a well-formed buffer, wrapped or not, `resize(newCapacity)` with
`0 < newCapacity` and `size <= newCapacity` succeeds, makes `capacity()` equal
to `newCapacity`, keeps `size()`, and `at(i)` returns the same element as
before for every `i < size()`. -/
theorem resize_preserves (c : Circular α) (n : Nat) (hwf : WF c) (hn : 0 < n)
    (hsz : c._size ≤ n) :
    ∃ c1, resize c n = .ok c1 ∧ c1.capacity = n ∧ c1.size = c.size ∧
      ∀ i, i < c.size → ∃ p, elemAt c i = .ok p ∧ elemAt c1 i = .ok p := by
  obtain ⟨c1, hr, hcap, hsize, -, -, -, -, -, hat⟩ := resize_facts hwf hn
  have hk : c._size - n = 0 := by omega
  refine ⟨c1, hr, hcap, by simp only [size, hsize, hk]; omega, ?_⟩
  intro i hi
  simp only [size] at hi
  refine ⟨slot c i, elemAt_of_lt hwf hi, ?_⟩
  have := hat i (by omega)
  simpa [hk] using this

/-- The theorem `resize_preserves` at a concrete buffer. -/
theorem resize_preserves_witness :
    WF exWrapped ∧ 0 < 2 ∧ exWrapped._size ≤ 2 ∧
    ∃ c1, resize exWrapped 2 = .ok c1 ∧ c1.capacity = 2 ∧ c1.size = exWrapped.size ∧
      ∀ i, i < exWrapped.size → ∃ p, elemAt exWrapped i = .ok p ∧ elemAt c1 i = .ok p :=
  ⟨by decide, by decide, by decide,
    resize_preserves exWrapped 2 (by decide) (by decide) (by decide)⟩

/-- C3: on a well-formed buffer, `resize(newCapacity)` with
`0 < newCapacity < size` succeeds with `size() == newCapacity == capacity()`;
the new `at(i)` is the old `at(oldSize - newCapacity + i)` for `i < newCapacity`;
an owning buffer deletes exactly the old `at(0), ..., at(oldSize - newCapacity - 1)`,
each once and oldest first, and a non-owning buffer deletes nothing. -/
theorem resize_shrink (c : Circular α) (n : Nat) (hwf : WF c) (hn : 0 < n)
    (hlt : n < c._size) :
    ∃ c1, resize c n = .ok c1 ∧ c1.size = n ∧ c1.capacity = n ∧
      (∀ i, i < n → ∃ p, elemAt c (c.size - n + i) = .ok p ∧ elemAt c1 i = .ok p) ∧
      (c._delete = true → ∃ ps, readRange c 0 (c.size - n) = .ok ps ∧
        c1.deleted = c.deleted ++ ps) ∧
      (c._delete = false → c1.deleted = c.deleted) := by
  obtain ⟨c1, hr, hcap, hsize, -, -, -, -, hdel, hat⟩ := resize_facts hwf hn
  have hs1 : c1._size = n := by omega
  refine ⟨c1, hr, hs1, hcap, ?_, ?_, ?_⟩
  · intro i hi
    simp only [size]
    exact ⟨slot c (c._size - n + i), elemAt_of_lt hwf (by omega), hat i (by omega)⟩
  · intro hd
    refine ⟨_, readRange_eq hwf (by simp only [size]; omega), ?_⟩
    simp only [hdel, hd, if_true, size, Nat.zero_add]
  · intro hd
    simp [hdel, hd]

/-- The theorem `resize_shrink` at a concrete buffer. -/
theorem resize_shrink_witness :
    WF exFull ∧ 0 < 2 ∧ 2 < exFull._size ∧
    ∃ c1, resize exFull 2 = .ok c1 ∧ c1.size = 2 ∧ c1.capacity = 2 ∧
      (∀ i, i < 2 → ∃ p, elemAt exFull (exFull.size - 2 + i) = .ok p ∧ elemAt c1 i = .ok p) ∧
      (exFull._delete = true → ∃ ps, readRange exFull 0 (exFull.size - 2) = .ok ps ∧
        c1.deleted = exFull.deleted ++ ps) ∧
      (exFull._delete = false → c1.deleted = exFull.deleted) :=
  ⟨by decide, by decide, by decide,
    resize_shrink exFull 2 (by decide) (by decide) (by decide)⟩

/-- C4: on a full buffer, `pushBack(x)` and `pushFront(x)` return false and the
buffer after the call is the buffer before it, field by field and slot by slot;
in particular no slot holds `x` that did not hold it before. -/
theorem push_full (c : Circular α) (x : Ptr α) (hwf : WF c) (hfull : c._size = c._capacity) :
    pushBack c x = .ok (false, c) ∧ pushFront c x = .ok (false, c) ∧
    ∀ b c1, (pushBack c x = .ok (b, c1) ∨ pushFront c x = .ok (b, c1)) →
      b = false ∧ c1._size = c._size ∧ c1._capacity = c._capacity ∧
      c1._front = c._front ∧ c1._back = c._back ∧ c1._data = c._data ∧
      front c1 = front c ∧ back c1 = back c ∧ (∀ i, elemAt c1 i = elemAt c i) ∧
      ∀ j, j < c1._data.length → c1._data.getD j none = x → c._data.getD j none = x := by
  have hb : pushBack c x = .ok (false, c) := by simp [pushBack, isFull, hfull]
  have hf : pushFront c x = .ok (false, c) := by simp [pushFront, isFull, hfull]
  refine ⟨hb, hf, ?_⟩
  intro b c1 h
  have : b = false ∧ c1 = c := by
    rcases h with h | h
    · rw [hb] at h; simp only [Except.ok.injEq, Prod.mk.injEq] at h; exact ⟨h.1.symm, h.2.symm⟩
    · rw [hf] at h; simp only [Except.ok.injEq, Prod.mk.injEq] at h; exact ⟨h.1.symm, h.2.symm⟩
  obtain ⟨rfl, rfl⟩ := this
  exact ⟨rfl, rfl, rfl, rfl, rfl, rfl, rfl, rfl, fun _ => rfl, fun _ _ h => h⟩

/-- The theorem `push_full` at a concrete buffer. -/
theorem push_full_witness :
    WF exFull ∧ exFull._size = exFull._capacity ∧
    pushBack exFull (some 9) = .ok (false, exFull) ∧
    pushFront exFull (some 9) = .ok (false, exFull) :=
  ⟨by decide, by decide, (push_full exFull (some 9) (by decide) (by decide)).1,
    (push_full exFull (some 9) (by decide) (by decide)).2.1⟩

/-- C5: for a fresh `Circular(c)`, `c > 0`, and a sequence of `pushBack`,
`pushFront`, `popFront`, `popBack`, `removeFront`, `removeBack`: either a pop
or remove is issued on an empty buffer (the run stops at its assertion, and the
reference deque refuses the sequence too), or the run succeeds, the pushes
return what the reference says, `[at(0), ..., at(size()-1)]` is the list of
retained elements of the reference, and `size()` is the number of pushes that
returned true minus the number of pops and removes. -/
theorem run_refines (cap : Nat) (d : Bool) (uninit : Nat → Ptr α) (ops : List (Op α))
    (hcap : 0 < cap) (hops : ∀ op ∈ ops, op.isEndOp = true) :
    ∃ c0, new cap d uninit = .ok c0 ∧
      ((run c0 ops = .error .assertion ∧ refRun ⟨[], cap⟩ ops = none) ∨
       ∃ bs c1 l, run c0 ops = .ok (bs, c1) ∧ refRun ⟨[], cap⟩ ops = some (bs, ⟨l, cap⟩) ∧
         contents c1 = .ok l ∧ c1.size = l.length ∧
         c1.size + numRemovals ops = bs.count true) := by
  obtain ⟨c0, hnew, hsim, hs0, -, -⟩ := new_sim cap d uninit hcap
  refine ⟨c0, hnew, ?_⟩
  rcases run_sim ops c0 _ hsim hops with h | ⟨bs, c1, r1, hrun, href, hsim1, hc1, hcnt⟩
  · exact Or.inl h
  · right
    obtain ⟨l, cap1⟩ := r1
    simp only at hc1
    subst hc1
    refine ⟨bs, c1, l, hrun, href, ?_, hsim1.size_eq, ?_⟩
    · rw [contents_eq hsim1.1, hsim1.2.2]
    · simp only [size]; omega

/-- The theorem `run_refines` at a concrete buffer. -/
theorem run_refines_witness :
    0 < 4 ∧ (∀ op ∈ exOps, op.isEndOp = true) ∧
    ∃ c0, new 4 true (fun _ => none) = .ok c0 ∧
      ((run c0 exOps = .error .assertion ∧ refRun ⟨[], 4⟩ exOps = none) ∨
       ∃ bs c1 l, run c0 exOps = .ok (bs, c1) ∧ refRun ⟨[], 4⟩ exOps = some (bs, ⟨l, 4⟩) ∧
         contents c1 = .ok l ∧ c1.size = l.length ∧
         c1.size + numRemovals exOps = bs.count true) :=
  ⟨by decide, by decide, run_refines 4 true (fun _ => none) exOps (by decide) (by decide)⟩

/-- C6: pushing a list `xs` of `N <= c` elements into a fresh `Circular(c)`,
`c > 0`: with `pushBack` every push returns true and `at(i) == xs[i]` for
`i < N`; with `pushFront` every push returns true and `at(i) == xs[N-1-i]` for
`i < N`; in both cases `size() == N` and `at(i)` is `nullptr` for `i >= N`. -/
theorem push_roundtrip (cap : Nat) (d : Bool) (uninit : Nat → Ptr α) (xs : List (Ptr α))
    (hcap : 0 < cap) (hN : xs.length ≤ cap) :
    ∃ c0, new cap d uninit = .ok c0 ∧
      (∃ c1, run c0 (xs.map Op.pushBack) = .ok (List.replicate xs.length true, c1) ∧
        c1.size = xs.length ∧
        (∀ i (h : i < xs.length), elemAt c1 i = .ok (xs.get ⟨i, h⟩)) ∧
        ∀ i, xs.length ≤ i → elemAt c1 i = .ok none) ∧
      (∃ c2, run c0 (xs.map Op.pushFront) = .ok (List.replicate xs.length true, c2) ∧
        c2.size = xs.length ∧
        (∀ i (h : i < xs.length),
          elemAt c2 i = .ok (xs.get ⟨xs.length - 1 - i, by omega⟩)) ∧
        ∀ i, xs.length ≤ i → elemAt c2 i = .ok none) := by
  obtain ⟨c0, hnew, hsim, hs0, -, -⟩ := new_sim cap d uninit hcap
  refine ⟨c0, hnew, ?_, ?_⟩
  · have href := refRun_pushBack xs ⟨[], cap⟩ (by simpa using hN)
    rcases run_sim _ c0 _ hsim (isEndOp_pushBack xs) with h | ⟨bs, c1, r1, hrun, hr, hsim1, -, -⟩
    · rw [href] at h; exact absurd h.2 (by simp)
    · rw [href] at hr
      simp only [Option.some.injEq, Prod.mk.injEq, List.nil_append] at hr
      obtain ⟨rfl, rfl⟩ := hr
      have hsz : c1._size = xs.length := hsim1.size_eq
      refine ⟨c1, hrun, hsz, fun i h => hsim1.elemAt i h, fun i h => ?_⟩
      exact elemAt_of_ge c1 (by omega)
  · have href := refRun_pushFront xs ⟨[], cap⟩ (by simpa using hN)
    rcases run_sim _ c0 _ hsim (isEndOp_pushFront xs) with h | ⟨bs, c1, r1, hrun, hr, hsim1, -, -⟩
    · rw [href] at h; exact absurd h.2 (by simp)
    · rw [href] at hr
      simp only [Option.some.injEq, Prod.mk.injEq, List.append_nil] at hr
      obtain ⟨rfl, rfl⟩ := hr
      have hsz : c1._size = xs.length := by simpa using hsim1.size_eq
      refine ⟨c1, hrun, hsz, fun i h => ?_, fun i h => ?_⟩
      · rw [hsim1.elemAt i (by simpa using h)]
        simp [List.getElem_reverse]
      · exact elemAt_of_ge c1 (by omega)

/-- The theorem `push_roundtrip` at a concrete buffer. -/
theorem push_roundtrip_witness :
    0 < 3 ∧ [some 1, some 2, some 3].length ≤ 3 ∧
    ∃ c0, new 3 true (fun _ => none) = .ok c0 ∧
      (∃ c1, run c0 ([some 1, some 2, some 3].map Op.pushBack)
          = .ok (List.replicate [some 1, some 2, some 3].length true, c1) ∧
        c1.size = [some 1, some 2, some 3].length ∧
        (∀ i (h : i < [some 1, some 2, some 3].length),
          elemAt c1 i = .ok ([some 1, some 2, some 3].get ⟨i, h⟩)) ∧
        ∀ i, [some 1, some 2, some 3].length ≤ i → elemAt c1 i = .ok none) ∧
      (∃ c2, run c0 ([some 1, some 2, some 3].map Op.pushFront)
          = .ok (List.replicate [some 1, some 2, some 3].length true, c2) ∧
        c2.size = [some 1, some 2, some 3].length ∧
        (∀ i (h : i < [some 1, some 2, some 3].length),
          elemAt c2 i = .ok ([some 1, some 2, some 3].get
            ⟨[some 1, some 2, some 3].length - 1 - i, by omega⟩)) ∧
        ∀ i, [some 1, some 2, some 3].length ≤ i → elemAt c2 i = .ok none) :=
  ⟨by decide, by decide,
    push_roundtrip 3 true (fun _ => none) [some 1, some 2, some 3] (by decide) (by decide)⟩

/-- C7: `operator[]` returns `nullptr` at an index `i >= size`; at `i < size` the
conditional subtraction computes `(front + i) mod capacity`, that index lies
inside the storage, and the slot's content is returned; the buffer is returned
as it was. -/
theorem operatorIndex_spec (c : Circular α) (i : Nat) (hf : c._front < c._capacity)
    (hs : c._size ≤ c._capacity) (hl : c._data.length = c._capacity) :
    (c._size ≤ i → operatorIndex c i = .ok (none, c)) ∧
    (i < c._size →
      (if i + c._front ≥ c._capacity then i + c._front - c._capacity else i + c._front)
          = (c._front + i) % c._capacity ∧
      ∃ h : (c._front + i) % c._capacity < c._data.length,
        operatorIndex c i = .ok (c._data.get ⟨(c._front + i) % c._capacity, h⟩, c)) := by
  refine ⟨fun h => operatorIndex_of_ge c h, fun h => ⟨wrapIndex_eq hf (by omega), ?_⟩⟩
  have hlt : (c._front + i) % c._capacity < c._data.length := by
    rw [hl]; exact Nat.mod_lt _ (by omega)
  exact ⟨hlt, by rw [operatorIndex_of_lt_aux hf hs hl h, slot_eq_get hlt]⟩

/-- The theorem `operatorIndex_spec` at a concrete buffer. -/
theorem operatorIndex_spec_witness :
    exWrapped._front < exWrapped._capacity ∧ exWrapped._size ≤ exWrapped._capacity ∧
    exWrapped._data.length = exWrapped._capacity ∧
    (exWrapped._size ≤ 1 → operatorIndex exWrapped 1 = .ok (none, exWrapped)) ∧
    (1 < exWrapped._size →
      (if 1 + exWrapped._front ≥ exWrapped._capacity
        then 1 + exWrapped._front - exWrapped._capacity else 1 + exWrapped._front)
          = (exWrapped._front + 1) % exWrapped._capacity ∧
      ∃ h : (exWrapped._front + 1) % exWrapped._capacity < exWrapped._data.length,
        operatorIndex exWrapped 1
          = .ok (exWrapped._data.get ⟨(exWrapped._front + 1) % exWrapped._capacity, h⟩,
              exWrapped)) :=
  ⟨by decide, by decide, by decide,
    operatorIndex_spec exWrapped 1 (by decide) (by decide) (by decide)⟩

/-- C8: on a well-formed buffer, `front()` and `back()` return `nullptr` when
`size == 0`; when `size > 0`, `front()` returns `at(0)` and `back()` returns
`at(size-1)`, which is the content of slot `(back - 1) mod capacity`; both
return the buffer as it was. -/
theorem front_back_spec (c : Circular α) (hwf : WF c) :
    (c._size = 0 → front c = .ok (none, c) ∧ back c = .ok (none, c)) ∧
    (0 < c._size → ∃ p q,
      front c = .ok (p, c) ∧ elemAt c 0 = .ok p ∧
      back c = .ok (q, c) ∧ elemAt c (c._size - 1) = .ok q ∧
      ∃ h : (c._back + c._capacity - 1) % c._capacity < c._data.length,
        q = c._data.get ⟨(c._back + c._capacity - 1) % c._capacity, h⟩) := by
  constructor
  · intro h
    simp [front, back, isEmpty, h]
  · intro hs
    refine ⟨slot c 0, slot c (c._size - 1), front_of_pos hwf hs,
      elemAt_of_lt hwf hs, back_of_pos hwf hs, elemAt_of_lt hwf (by omega), ?_⟩
    have hlt : (c._back + c._capacity - 1) % c._capacity < c._data.length := by
      rw [hwf.2.2.2.2]; exact Nat.mod_lt _ hwf.1
    refine ⟨hlt, ?_⟩
    simp only [slot, List.get_eq_getElem, (back_index_eq hwf hs).2.symm]
    exact List.getD_eq_getElem _ _ hlt

/-- The theorem `front_back_spec` at a concrete buffer. -/
theorem front_back_spec_witness :
    WF exWrapped ∧
    (exWrapped._size = 0 →
      front exWrapped = .ok (none, exWrapped) ∧ back exWrapped = .ok (none, exWrapped)) ∧
    (0 < exWrapped._size → ∃ p q,
      front exWrapped = .ok (p, exWrapped) ∧ elemAt exWrapped 0 = .ok p ∧
      back exWrapped = .ok (q, exWrapped) ∧ elemAt exWrapped (exWrapped._size - 1) = .ok q ∧
      ∃ h : (exWrapped._back + exWrapped._capacity - 1) % exWrapped._capacity
          < exWrapped._data.length,
        q = exWrapped._data.get
          ⟨(exWrapped._back + exWrapped._capacity - 1) % exWrapped._capacity, h⟩) :=
  ⟨by decide, front_back_spec exWrapped (by decide)⟩

/-- C9: on a well-formed non-empty buffer, `removeFront()` ends in the state of
`popFront()` and `removeBack()` in the state of `popBack()`, except for the log
of deletions: an owning buffer deletes exactly the pointer `front()`
(respectively `back()`) returned before the call, a non-owning buffer deletes
nothing. -/
theorem remove_spec (c : Circular α) (hwf : WF c) (hs : 0 < c._size) :
    (∃ c1 p, popFront c = .ok c1 ∧ front c = .ok (p, c) ∧ c1.deleted = c.deleted ∧
      removeFront c = .ok { c1 with deleted := if c._delete then c.deleted ++ [p]
                                               else c.deleted }) ∧
    (∃ c1 q, popBack c = .ok c1 ∧ back c = .ok (q, c) ∧ c1.deleted = c.deleted ∧
      removeBack c = .ok { c1 with deleted := if c._delete then c.deleted ++ [q]
                                              else c.deleted }) := by
  constructor
  · exact ⟨_, _, popFront_eq hs hwf.2.2.1, front_of_pos hwf hs, rfl, removeFront_eq hwf hs⟩
  · exact ⟨_, _, popBack_eq hs hwf.back_lt, back_of_pos hwf hs, rfl, removeBack_eq hwf hs⟩

/-- The theorem `remove_spec` at a concrete buffer. -/
theorem remove_spec_witness :
    WF exWrapped ∧ 0 < exWrapped._size ∧
    (∃ c1 p, popFront exWrapped = .ok c1 ∧ front exWrapped = .ok (p, exWrapped) ∧
      c1.deleted = exWrapped.deleted ∧
      removeFront exWrapped
        = .ok { c1 with deleted := if exWrapped._delete then exWrapped.deleted ++ [p]
                                   else exWrapped.deleted }) ∧
    (∃ c1 q, popBack exWrapped = .ok c1 ∧ back exWrapped = .ok (q, exWrapped) ∧
      c1.deleted = exWrapped.deleted ∧
      removeBack exWrapped
        = .ok { c1 with deleted := if exWrapped._delete then exWrapped.deleted ++ [q]
                                   else exWrapped.deleted }) :=
  ⟨by decide, by decide, remove_spec exWrapped (by decide) (by decide)⟩

/-- C10: on a well-formed non-empty buffer, `popFront()` moves `front` to
`(front + 1) mod capacity` and `popBack()` moves `back` to
`(back - 1) mod capacity`; each takes one off `size` and changes no other field,
no storage slot and no deletion log, so `at(i)` afterwards is the old `at(i+1)`
(`popFront`) or the old `at(i)` (`popBack`) for `i` below the new size. -/
theorem pop_spec (c : Circular α) (hwf : WF c) (hs : 0 < c._size) :
    (∃ c1, popFront c = .ok c1 ∧
      c1._front = (c._front + 1) % c._capacity ∧ c1._size + 1 = c._size ∧
      c1._back = c._back ∧ c1._capacity = c._capacity ∧ c1._data = c._data ∧
      c1._delete = c._delete ∧ c1.deleted = c.deleted ∧
      ∀ i, i < c1._size → ∃ p, elemAt c (i + 1) = .ok p ∧ elemAt c1 i = .ok p) ∧
    (∃ c1, popBack c = .ok c1 ∧
      c1._back = (c._back + c._capacity - 1) % c._capacity ∧ c1._size + 1 = c._size ∧
      c1._front = c._front ∧ c1._capacity = c._capacity ∧ c1._data = c._data ∧
      c1._delete = c._delete ∧ c1.deleted = c.deleted ∧
      ∀ i, i < c1._size → ∃ p, elemAt c i = .ok p ∧ elemAt c1 i = .ok p) := by
  obtain ⟨h0, hsz, hf, hb, hl⟩ := hwf
  have hwf : WF c := ⟨h0, hsz, hf, hb, hl⟩
  constructor
  · refine ⟨_, popFront_eq hs hf, rfl, by simp only []; omega, rfl, rfl, rfl, rfl, rfl, ?_⟩
    intro i hi
    simp only [] at hi
    refine ⟨slot c (i + 1), elemAt_of_lt hwf (by omega), ?_⟩
    refine Eq.trans (elemAt_of_lt_aux ?_ ?_ ?_ ?_) ?_
    · exact Nat.mod_lt _ h0
    · simp only []; omega
    · exact hl
    · exact hi
    · simp only [slot, Nat.mod_add_mod, Nat.add_assoc, Nat.add_comm 1 i]
  · refine ⟨_, popBack_eq hs hwf.back_lt, rfl, by simp only []; omega, rfl, rfl, rfl, rfl,
      rfl, ?_⟩
    intro i hi
    simp only [] at hi
    refine ⟨slot c i, elemAt_of_lt hwf (by omega), ?_⟩
    refine Eq.trans (elemAt_of_lt_aux ?_ ?_ ?_ ?_) ?_
    · exact hf
    · simp only []; omega
    · exact hl
    · exact hi
    · rfl

/-- The theorem `pop_spec` at a concrete buffer. -/
theorem pop_spec_witness :
    WF exWrapped ∧ 0 < exWrapped._size ∧
    (∃ c1, popFront exWrapped = .ok c1 ∧
      c1._front = (exWrapped._front + 1) % exWrapped._capacity ∧
      c1._size + 1 = exWrapped._size ∧
      c1._back = exWrapped._back ∧ c1._capacity = exWrapped._capacity ∧
      c1._data = exWrapped._data ∧
      c1._delete = exWrapped._delete ∧ c1.deleted = exWrapped.deleted ∧
      ∀ i, i < c1._size → ∃ p, elemAt exWrapped (i + 1) = .ok p ∧ elemAt c1 i = .ok p) ∧
    (∃ c1, popBack exWrapped = .ok c1 ∧
      c1._back = (exWrapped._back + exWrapped._capacity - 1) % exWrapped._capacity ∧
      c1._size + 1 = exWrapped._size ∧
      c1._front = exWrapped._front ∧ c1._capacity = exWrapped._capacity ∧
      c1._data = exWrapped._data ∧
      c1._delete = exWrapped._delete ∧ c1.deleted = exWrapped.deleted ∧
      ∀ i, i < c1._size → ∃ p, elemAt exWrapped i = .ok p ∧ elemAt c1 i = .ok p) :=
  ⟨by decide, by decide, pop_spec exWrapped (by decide) (by decide)⟩

/-! ## Further auxiliary facts -/

theorem isEmpty_of_size_zero {c : Circular α} (h : c._size = 0) : c.isEmpty = true := by
  simp [isEmpty, h]

theorem isEmpty_of_size_pos {c : Circular α} (h : c._size ≠ 0) : c.isEmpty = false := by
  simp [isEmpty, h]

theorem forget_popFrontObs (c : Circular α) : forgetObs (popFrontObs c) = popFront c := by
  unfold popFrontObs popFront
  split <;> rfl

theorem forget_popBackObs (c : Circular α) : forgetObs (popBackObs c) = popBack c := by
  unfold popBackObs popBack
  split <;> rfl

theorem forget_removeFrontObs (c : Circular α) :
    forgetObs (removeFrontObs c) = removeFront c := by
  unfold removeFrontObs removeFront
  split
  · rfl
  · split
    · split
      · rfl
      · exact forget_popFrontObs _
    · exact forget_popFrontObs _

theorem forget_removeBackObs (c : Circular α) :
    forgetObs (removeBackObs c) = removeBack c := by
  unfold removeBackObs removeBack
  split
  · rfl
  · rw [← forget_popBackObs c]
    rcases hp : popBackObs c with ⟨r, c1⟩
    cases r with
    | error e => rfl
    | ok u =>
      simp only [forgetObs]
      by_cases hd : c1._delete = true
      · simp only [hd, if_true]
        cases hl : load c1._data c1._back <;> rfl
      · simp only [hd, Bool.false_eq_true, if_false]

theorem popFront_assert_iff (c : Circular α) :
    popFront c = .error .assertion ↔ c._size = 0 := by
  constructor
  · intro h
    by_contra hs
    simp [popFront, isEmpty_of_size_pos hs] at h
  · intro h
    simp [popFront, isEmpty_of_size_zero h]

theorem popBack_assert_iff (c : Circular α) :
    popBack c = .error .assertion ↔ c._size = 0 := by
  constructor
  · intro h
    by_contra hs
    simp [popBack, isEmpty_of_size_pos hs] at h
  · intro h
    simp [popBack, isEmpty_of_size_zero h]

theorem removeFront_assert_iff (c : Circular α) :
    removeFront c = .error .assertion ↔ c._size = 0 := by
  constructor
  · intro h
    by_contra hs
    have hne := isEmpty_of_size_pos hs
    simp only [removeFront, hne, Bool.false_eq_true, if_false] at h
    split at h
    · split at h
      · next e he =>
        simp only [load] at he
        split at he
        · cases he
        · cases he; cases h
      · rw [popFront_assert_iff] at h
        exact hs h
    · rw [popFront_assert_iff] at h
      exact hs h
  · intro h
    simp [removeFront, isEmpty_of_size_zero h]

theorem popBack_isOk_of_pos {c : Circular α} (hs : c._size ≠ 0) :
    ∃ c1, popBack c = .ok c1 := by
  simp [popBack, isEmpty_of_size_pos hs]

theorem removeBack_assert_iff (c : Circular α) :
    removeBack c = .error .assertion ↔ c._size = 0 := by
  constructor
  · intro h
    by_contra hs
    have hne := isEmpty_of_size_pos hs
    obtain ⟨c1, hc1⟩ := popBack_isOk_of_pos hs
    simp only [removeBack, hne, Bool.false_eq_true, if_false, hc1] at h
    by_cases hd : c1._delete = true
    · simp only [hd, if_true] at h
      by_cases hl : c1._back < c1._data.length
      · simp [load, hl] at h
      · simp [load, hl] at h
    · simp [hd] at h
  · intro h
    simp [removeBack, isEmpty_of_size_zero h]

theorem WF_evicted {c : Circular α} (hwf : WF c) {k : Nat} (hk : k ≤ c._size) :
    WF (evicted c k) := by
  obtain ⟨h0, hsz, hf, hb, hl⟩ := hwf
  refine ⟨h0, by simp only [evicted]; omega, Nat.mod_lt _ h0, ?_, hl⟩
  simp only [evicted, hb, Nat.mod_add_mod]
  congr 1; omega

theorem clear_eq : ∀ (k : Nat) (c : Circular α), WF c → c._size = k →
    clear c = .ok (evicted c k) := by
  intro k
  induction k with
  | zero =>
    intro c hwf hk
    rw [clear, evicted_zero hwf]
    simp [isEmpty, hk]
  | succ k ih =>
    intro c hwf hk
    have hs : 0 < c._size := by omega
    have hne : c.isEmpty = false := by simp [isEmpty]; omega
    rw [clear]
    simp only [hne, Bool.false_eq_true, if_false]
    split
    · next e he => rw [removeFront_eq_evicted hwf hs] at he; cases he
    · next c1 he =>
      rw [removeFront_eq_evicted hwf hs] at he
      cases he
      rw [ih _ (hwf.removeFront hs) (by simp only [evicted]; omega), evicted_succ c k (by omega)]

theorem removeFrontTimes_eq : ∀ (k : Nat) (c : Circular α), WF c → k ≤ c._size →
    removeFrontTimes k c = .ok (evicted c k) := by
  intro k
  induction k with
  | zero =>
    intro c hwf _
    rw [removeFrontTimes, evicted_zero hwf]
  | succ k ih =>
    intro c hwf hk
    have hs : 0 < c._size := by omega
    rw [removeFrontTimes, removeFront_eq_evicted hwf hs]
    simp only []
    rw [ih _ (hwf.removeFront hs) (by simp only [evicted]; omega), evicted_succ c k (by omega)]

theorem popFront_fields {c c1 : Circular α} (h : popFront c = .ok c1) :
    c._size ≠ 0 ∧ c1._capacity = c._capacity ∧ c1._size + 1 = c._size := by
  by_cases hs : c._size = 0
  · simp [popFront, isEmpty, hs] at h
  · simp only [popFront, isEmpty_of_size_pos hs, Bool.false_eq_true, if_false,
      Except.ok.injEq] at h
    subst h
    refine ⟨hs, ?_, ?_⟩
    · split <;> rfl
    · split <;> (simp only []; omega)

theorem popBack_fields {c c1 : Circular α} (h : popBack c = .ok c1) :
    c._size ≠ 0 ∧ c1._capacity = c._capacity ∧ c1._size + 1 = c._size := by
  by_cases hs : c._size = 0
  · simp [popBack, isEmpty, hs] at h
  · simp only [popBack, isEmpty_of_size_pos hs, Bool.false_eq_true, if_false,
      Except.ok.injEq] at h
    subst h
    refine ⟨hs, ?_, ?_⟩
    · split <;> rfl
    · split <;> (simp only []; omega)

theorem removeFront_fields {c c1 : Circular α} (h : removeFront c = .ok c1) :
    c._size ≠ 0 ∧ c1._capacity = c._capacity ∧ c1._size + 1 = c._size := by
  by_cases hs : c._size = 0
  · simp [removeFront, isEmpty, hs] at h
  · simp only [removeFront, isEmpty_of_size_pos hs, Bool.false_eq_true, if_false] at h
    split at h
    · split at h
      · cases h
      · have hf := popFront_fields h
        exact ⟨hs, hf.2.1, hf.2.2⟩
    · exact popFront_fields h

theorem removeBack_fields {c c1 : Circular α} (h : removeBack c = .ok c1) :
    c._size ≠ 0 ∧ c1._capacity = c._capacity ∧ c1._size + 1 = c._size := by
  by_cases hs : c._size = 0
  · simp [removeBack, isEmpty, hs] at h
  · obtain ⟨c2, hc2⟩ := popBack_isOk_of_pos hs
    have hf := popBack_fields hc2
    simp only [removeBack, isEmpty_of_size_pos hs, Bool.false_eq_true, if_false, hc2] at h
    split at h
    · split at h
      · cases h
      · simp only [Except.ok.injEq] at h
        subst h
        exact hf
    · simp only [Except.ok.injEq] at h
      subst h
      exact hf

theorem clear_fields : ∀ (k : Nat) (c c1 : Circular α), c._size = k → clear c = .ok c1 →
    c1._capacity = c._capacity ∧ c1._size = 0 := by
  intro k
  induction k with
  | zero =>
    intro c c1 hk h
    rw [clear] at h
    simp only [isEmpty_of_size_zero hk, if_true, Except.ok.injEq] at h
    subst h
    exact ⟨rfl, hk⟩
  | succ k ih =>
    intro c c1 hk h
    have hs : c._size ≠ 0 := by omega
    rw [clear] at h
    simp only [isEmpty_of_size_pos hs, Bool.false_eq_true, if_false] at h
    split at h
    · cases h
    · next c2 he =>
      have hf := removeFront_fields he
      have := ih c2 c1 (by omega) h
      exact ⟨by rw [this.1, hf.2.1], this.2⟩

theorem resizeEvict_fields (n : Nat) : ∀ (k : Nat) (c c1 : Circular α), c._size = k →
    resizeEvict n c = .ok c1 → c1._size ≤ n := by
  intro k
  induction k using Nat.strong_induction_on with
  | _ k ih =>
    intro c c1 hk h
    rw [resizeEvict] at h
    by_cases hgt : c._size > n
    · simp only [hgt, if_true] at h
      split at h
      · cases h
      · next c2 he =>
        have hf := removeFront_fields he
        exact ih c2._size (by omega) c2 c1 rfl h
    · simp only [hgt, if_false, Except.ok.injEq] at h
      subst h
      omega

theorem resizeCopy_fields {c1 c2 : Circular α} {n : Nat} (h : resizeCopy c1 n = .ok c2) :
    c2._capacity = n ∧ c2._size = c1._size := by
  simp only [resizeCopy] at h
  split at h
  · cases h
  · next c3 t hr =>
    simp only [Except.ok.injEq] at h
    subst h
    refine ⟨rfl, ?_⟩
    simp only []
    split at hr
    · split at hr
      · split at hr
        · cases hr
        · simp only [Except.ok.injEq, Prod.mk.injEq] at hr
          rw [← hr.1]
      · split at hr
        · split at hr
          · cases hr
          · split at hr
            · cases hr
            · simp only [Except.ok.injEq, Prod.mk.injEq] at hr
              rw [← hr.1]
        · simp only [Except.ok.injEq, Prod.mk.injEq] at hr
          rw [← hr.1]
    · simp only [Except.ok.injEq, Prod.mk.injEq] at hr
      rw [← hr.1]

theorem resize_fields {c c2 : Circular α} {n : Nat} (h : resize c n = .ok c2) :
    0 < n ∧ c2._capacity = n ∧ c2._size ≤ n := by
  by_cases hn : n > 0
  · simp only [resize, hn, if_true] at h
    split at h
    · cases h
    · next c1 he =>
      have h1 := resizeEvict_fields n _ c c1 rfl he
      have h2 := resizeCopy_fields h
      exact ⟨hn, h2.1, by omega⟩
  · simp [resize, hn] at h

theorem pushBack_fields {c c1 : Circular α} {x : Ptr α} {b : Bool}
    (h : pushBack c x = .ok (b, c1)) (hle : c._size ≤ c._capacity) :
    c1._capacity = c._capacity ∧ c1._size ≤ c1._capacity := by
  by_cases hfull : c._size = c._capacity
  · simp only [pushBack, isFull, hfull, beq_self_eq_true, if_true, Except.ok.injEq,
      Prod.mk.injEq] at h
    rw [← h.2]
    exact ⟨rfl, by omega⟩
  · have hf : (c._size == c._capacity) = false := by simpa using hfull
    simp only [pushBack, isFull, hf, Bool.false_eq_true, if_false] at h
    split at h
    · cases h
    · simp only [Except.ok.injEq, Prod.mk.injEq] at h
      rw [← h.2]
      constructor
      · split <;> rfl
      · split <;> (simp only []; omega)

theorem pushFront_fields {c c1 : Circular α} {x : Ptr α} {b : Bool}
    (h : pushFront c x = .ok (b, c1)) (hle : c._size ≤ c._capacity) :
    c1._capacity = c._capacity ∧ c1._size ≤ c1._capacity := by
  by_cases hfull : c._size = c._capacity
  · simp only [pushFront, isFull, hfull, beq_self_eq_true, if_true, Except.ok.injEq,
      Prod.mk.injEq] at h
    rw [← h.2]
    exact ⟨rfl, by omega⟩
  · have hf : (c._size == c._capacity) = false := by simpa using hfull
    simp only [pushFront, isFull, hf, Bool.false_eq_true, if_false] at h
    split at h
    · cases h
    · simp only [Except.ok.injEq, Prod.mk.injEq] at h
      rw [← h.2]
      constructor
      · simp only []; split <;> rfl
      · simp only []; split <;> (simp only []; omega)

theorem step_bounds {c c1 : Circular α} {op : Op α} {b : Option Bool}
    (h : step c op = .ok (b, c1)) (h0 : 0 < c._capacity) (hle : c._size ≤ c._capacity) :
    0 < c1._capacity ∧ c1._size ≤ c1._capacity := by
  cases op with
  | pushBack x =>
    simp only [step] at h
    split at h
    · cases h
    · next b1 c2 hp =>
      simp only [Except.ok.injEq, Prod.mk.injEq] at h
      have hf := pushBack_fields hp hle
      rw [← h.2]
      exact ⟨by omega, hf.2⟩
  | pushFront x =>
    simp only [step] at h
    split at h
    · cases h
    · next b1 c2 hp =>
      simp only [Except.ok.injEq, Prod.mk.injEq] at h
      have hf := pushFront_fields hp hle
      rw [← h.2]
      exact ⟨by omega, hf.2⟩
  | popFront =>
    simp only [step, stepVoid] at h
    split at h
    · cases h
    · next c2 hp =>
      simp only [Except.ok.injEq, Prod.mk.injEq] at h
      have hf := popFront_fields hp
      rw [← h.2]
      exact ⟨by omega, by omega⟩
  | popBack =>
    simp only [step, stepVoid] at h
    split at h
    · cases h
    · next c2 hp =>
      simp only [Except.ok.injEq, Prod.mk.injEq] at h
      have hf := popBack_fields hp
      rw [← h.2]
      exact ⟨by omega, by omega⟩
  | removeFront =>
    simp only [step, stepVoid] at h
    split at h
    · cases h
    · next c2 hp =>
      simp only [Except.ok.injEq, Prod.mk.injEq] at h
      have hf := removeFront_fields hp
      rw [← h.2]
      exact ⟨by omega, by omega⟩
  | removeBack =>
    simp only [step, stepVoid] at h
    split at h
    · cases h
    · next c2 hp =>
      simp only [Except.ok.injEq, Prod.mk.injEq] at h
      have hf := removeBack_fields hp
      rw [← h.2]
      exact ⟨by omega, by omega⟩
  | clear =>
    simp only [step, stepVoid] at h
    split at h
    · cases h
    · next c2 hp =>
      simp only [Except.ok.injEq, Prod.mk.injEq] at h
      have hf := clear_fields _ c c2 rfl hp
      rw [← h.2]
      exact ⟨by omega, by omega⟩
  | resize n =>
    simp only [step, stepVoid] at h
    split at h
    · cases h
    · next c2 hp =>
      simp only [Except.ok.injEq, Prod.mk.injEq] at h
      have hf := resize_fields hp
      rw [← h.2]
      exact ⟨by omega, by omega⟩

theorem run_bounds (ops : List (Op α)) : ∀ (c c1 : Circular α) (bs : List Bool),
    run c ops = .ok (bs, c1) → 0 < c._capacity → c._size ≤ c._capacity →
    0 < c1._capacity ∧ c1._size ≤ c1._capacity := by
  induction ops with
  | nil =>
    intro c c1 bs h h0 hle
    simp only [run, Except.ok.injEq, Prod.mk.injEq] at h
    rw [← h.2]
    exact ⟨h0, hle⟩
  | cons op ops ih =>
    intro c c1 bs h h0 hle
    simp only [run] at h
    split at h
    · cases h
    · next b c2 hs =>
      have hb := step_bounds hs h0 hle
      split at h
      · cases h
      · next bs2 c3 hr =>
        simp only [Except.ok.injEq, Prod.mk.injEq] at h
        rw [← h.2]
        exact ih c2 c3 bs2 hr hb.1 hb.2

theorem new_fields {capacity : Nat} {d : Bool} {uninit : Nat → Ptr α} {c0 : Circular α}
    (h : new capacity d uninit = .ok c0) :
    0 < capacity ∧ c0._capacity = capacity ∧ c0._size = 0 ∧ c0._front = 0 ∧ c0._back = 0 := by
  by_cases hc : capacity > 0
  · simp only [new, hc, if_true, Except.ok.injEq] at h
    subst h
    exact ⟨hc, rfl, rfl, rfl, rfl⟩
  · simp [new, hc] at h

/-! ## The claims, continued -/

/-- C11: the lifetime claim fails on the code.  In an owning `Circular(1)` the
calls `pushBack(1)`, `resize(1)`, `removeFront()` succeed, delete the pointer
`1` and leave `size == 0`, `back == 1 == capacity`; the following
`pushBack(2)` is accepted and writes slot `_data[1]` of a one-slot array, so
the lifetime stops at that fault instead of releasing `2` at destruction. -/
theorem lifetime_resize_full_faults :
    ∃ c0 c3, new 1 true (fun _ => none) = .ok c0 ∧
      run c0 (exLifetimeOps.take 3) = .ok ([true], c3) ∧
      c3.deleted = [some 1] ∧ c3._size = 0 ∧ c3._back = 1 ∧ c3._capacity = 1 ∧
      c3._data.length = 1 ∧
      pushBack c3 (some 2) = .error .outOfBounds ∧
      lifetime 1 true (fun _ => none) exLifetimeOps = .error .outOfBounds ∧
      lifetime 1 true (fun _ => none) (exLifetimeOps.take 3) = .ok ([true], [some 1]) := by
  refine ⟨{ _delete := true, _capacity := 1, _front := 0, _back := 0, _size := 0,
            _data := [none], deleted := [] },
          { _delete := true, _capacity := 1, _front := 0, _back := 1, _size := 0,
            _data := [some 1], deleted := [some 1] }, ?_, ?_, rfl, rfl, rfl, rfl, rfl, ?_, ?_, ?_⟩
  · decide
  · simp [exLifetimeOps, run, step, stepVoid, pushBack, removeFront, popFront, resize,
      resizeEvict, resizeCopy, load, memcpy, store, isFull, isEmpty]
  · decide
  · simp [lifetime, new, exLifetimeOps, run, step, stepVoid, pushBack, removeFront, popFront,
      resize, resizeEvict, resizeCopy, load, memcpy, store, isFull, isEmpty]
  · simp [lifetime, new, exLifetimeOps, run, step, stepVoid, pushBack, removeFront, popFront,
      resize, resizeEvict, resizeCopy, load, memcpy, store, isFull, isEmpty, destroy,
      destroyLoop]

/-- C12: in every buffer state, each of `popFront()`, `popBack()`,
`removeFront()` and `removeBack()` stops at its assertion if and only if
`size == 0`; when it does, the buffer at that point is the buffer before the
call, field by field, deletion log included. -/
theorem pop_remove_assert (c : Circular α) :
    (popFront c = .error .assertion ↔ c._size = 0) ∧
    (popBack c = .error .assertion ↔ c._size = 0) ∧
    (removeFront c = .error .assertion ↔ c._size = 0) ∧
    (removeBack c = .error .assertion ↔ c._size = 0) ∧
    (forgetObs (popFrontObs c) = popFront c ∧ forgetObs (popBackObs c) = popBack c ∧
      forgetObs (removeFrontObs c) = removeFront c ∧
      forgetObs (removeBackObs c) = removeBack c) ∧
    (c._size = 0 →
      popFrontObs c = (.error .assertion, c) ∧ popBackObs c = (.error .assertion, c) ∧
      removeFrontObs c = (.error .assertion, c) ∧
      removeBackObs c = (.error .assertion, c)) := by
  refine ⟨popFront_assert_iff c, popBack_assert_iff c, removeFront_assert_iff c,
    removeBack_assert_iff c, ⟨forget_popFrontObs c, forget_popBackObs c,
      forget_removeFrontObs c, forget_removeBackObs c⟩, ?_⟩
  intro h
  have he := isEmpty_of_size_zero h
  simp [popFrontObs, popBackObs, removeFrontObs, removeBackObs, he]

/-- The theorem `pop_remove_assert` at an empty buffer with stale slots. -/
theorem pop_remove_assert_witness :
    exEmpty._size = 0 ∧
    popFront exEmpty = .error .assertion ∧ popBack exEmpty = .error .assertion ∧
    removeFront exEmpty = .error .assertion ∧ removeBack exEmpty = .error .assertion ∧
    popFrontObs exEmpty = (.error .assertion, exEmpty) ∧
    popBackObs exEmpty = (.error .assertion, exEmpty) ∧
    removeFrontObs exEmpty = (.error .assertion, exEmpty) ∧
    removeBackObs exEmpty = (.error .assertion, exEmpty) :=
  ⟨by decide, (pop_remove_assert exEmpty).1.mpr (by decide),
    (pop_remove_assert exEmpty).2.1.mpr (by decide),
    (pop_remove_assert exEmpty).2.2.1.mpr (by decide),
    (pop_remove_assert exEmpty).2.2.2.1.mpr (by decide),
    (pop_remove_assert exEmpty).2.2.2.2.2 (by decide)⟩

/-- C13, as stated, fails: on the empty buffer `exEmpty` the calls `front()` and
`back()` return `nullptr` and the buffer; neither stops at a fault. -/
theorem front_back_empty_returns :
    exEmpty._size = 0 ∧
    front exEmpty = .ok (none, exEmpty) ∧ back exEmpty = .ok (none, exEmpty) ∧
    (¬ ∃ e, front exEmpty = .error e) ∧ (¬ ∃ e, back exEmpty = .error e) := by
  have hf : front exEmpty = .ok (none, exEmpty) := by decide
  have hb : back exEmpty = .ok (none, exEmpty) := by decide
  refine ⟨rfl, hf, hb, ?_, ?_⟩
  · rintro ⟨e, he⟩
    rw [hf] at he
    cases he
  · rintro ⟨e, he⟩
    rw [hb] at he
    cases he

/-- C13, amended: in every buffer state with `size == 0`, `front()` and `back()`
do not fail; each returns `nullptr` and leaves the buffer as it was. -/
theorem front_back_empty (c : Circular α) (h : c._size = 0) :
    front c = .ok (none, c) ∧ back c = .ok (none, c) := by
  simp [front, back, isEmpty, h]

/-- The theorem `front_back_empty` at an empty buffer with stale slots. -/
theorem front_back_empty_witness :
    exEmpty._size = 0 ∧
    front exEmpty = .ok (none, exEmpty) ∧ back exEmpty = .ok (none, exEmpty) :=
  ⟨by decide, front_back_empty exEmpty (by decide)⟩

/-- C14: on a well-formed buffer `clear()` returns, and what it returns is the
result of exactly `size` calls of `removeFront()` (after fewer the buffer is
not yet empty); afterwards `size() == 0`, `isEmpty()` holds and the capacity is
the same; an owning buffer has deleted exactly the old `at(0), ..., at(size-1)`,
each once and front to back, a non-owning buffer nothing; on an empty buffer
the result is the buffer itself. -/
theorem clear_spec (c : Circular α) (hwf : WF c) :
    ∃ c1, clear c = .ok c1 ∧ removeFrontTimes c._size c = .ok c1 ∧
      (∀ j, j < c._size → ∃ cj, removeFrontTimes j c = .ok cj ∧ cj.isEmpty = false) ∧
      c1.size = 0 ∧ c1.isEmpty = true ∧ c1.capacity = c.capacity ∧
      (c._delete = true → ∃ ps, contents c = .ok ps ∧ c1.deleted = c.deleted ++ ps) ∧
      (c._delete = false → c1.deleted = c.deleted) ∧
      (c._size = 0 → c1 = c) := by
  refine ⟨evicted c c._size, clear_eq _ c hwf rfl, removeFrontTimes_eq _ c hwf (Nat.le_refl _),
    ?_, ?_, ?_, rfl, ?_, ?_, ?_⟩
  · intro j hj
    refine ⟨_, removeFrontTimes_eq j c hwf (by omega), ?_⟩
    simp only [isEmpty, evicted, beq_eq_false_iff_ne, ne_eq]
    omega
  · simp [size, evicted]
  · simp [isEmpty, evicted]
  · intro hd
    refine ⟨_, contents_eq hwf, ?_⟩
    simp [evicted, hd, toList]
  · intro hd
    simp [evicted, hd]
  · intro h0
    rw [h0]
    exact evicted_zero hwf

/-- The theorem `clear_spec` at a full, wrapped, owning buffer. -/
theorem clear_spec_witness :
    WF exFull ∧
    ∃ c1, clear exFull = .ok c1 ∧ removeFrontTimes exFull._size exFull = .ok c1 ∧
      (∀ j, j < exFull._size →
        ∃ cj, removeFrontTimes j exFull = .ok cj ∧ cj.isEmpty = false) ∧
      c1.size = 0 ∧ c1.isEmpty = true ∧ c1.capacity = exFull.capacity ∧
      (exFull._delete = true →
        ∃ ps, contents exFull = .ok ps ∧ c1.deleted = exFull.deleted ++ ps) ∧
      (exFull._delete = false → c1.deleted = exFull.deleted) ∧
      (exFull._size = 0 → c1 = exFull) :=
  ⟨by decide, clear_spec exFull (by decide)⟩

/-- C15: the constructor stops at its assertion if and only if
`capacity == 0`; for `capacity > 0` it yields a buffer with a storage of
exactly `capacity` slots, `capacity() == capacity`, `size() == 0`,
`front == back == 0`, `isEmpty()` true, `isFull()` false, the given ownership
policy, nothing deleted, and `at(i)`, `front()` and `back()` all `nullptr`;
with the policy argument omitted the buffer is owning. -/
theorem new_spec (capacity : Nat) (d : Bool) (uninit : Nat → Ptr α) :
    (new capacity d uninit = .error .assertion ↔ capacity = 0) ∧
    (0 < capacity → ∃ c, new capacity d uninit = .ok c ∧
      c._data.length = capacity ∧ c.capacity = capacity ∧ c.size = 0 ∧
      c._front = 0 ∧ c._back = 0 ∧ c.isEmpty = true ∧ c.isFull = false ∧
      c._delete = d ∧ c.deleted = [] ∧
      (∀ i, elemAt c i = .ok none) ∧ front c = .ok (none, c) ∧ back c = .ok (none, c)) ∧
    newOwning capacity uninit = new capacity true uninit ∧
    newDefault uninit = new 1 true uninit := by
  refine ⟨?_, ?_, rfl, rfl⟩
  · constructor
    · intro h
      by_contra hc
      have : capacity > 0 := by omega
      simp [new, this] at h
    · intro h
      simp [new, h]
  · intro hc
    refine ⟨{ _delete := d, _capacity := capacity, _front := 0, _back := 0, _size := 0,
              _data := (List.range capacity).map uninit, deleted := [] }, ?_, ?_, rfl, rfl, rfl,
      rfl, rfl, ?_, rfl, rfl, ?_, ?_, ?_⟩
    · simp only [new, gt_iff_lt, hc, if_true]
    · simp
    · simp [isFull]; omega
    · intro i
      exact elemAt_of_ge _ (Nat.zero_le i)
    · simp [front, isEmpty]
    · simp [back, isEmpty]

/-- The theorem `new_spec` at capacity 3 and at capacity 0. -/
theorem new_spec_witness :
    (∃ c : Circular Nat, new 3 false (fun _ => none) = .ok c ∧
      c._data.length = 3 ∧ c.capacity = 3 ∧ c.size = 0 ∧
      c._front = 0 ∧ c._back = 0 ∧ c.isEmpty = true ∧ c.isFull = false ∧
      c._delete = false ∧ c.deleted = [] ∧
      (∀ i, elemAt c i = .ok none) ∧ front c = .ok (none, c) ∧ back c = .ok (none, c)) ∧
    new 0 true (fun _ => (none : Ptr Nat)) = .error .assertion :=
  ⟨(new_spec 3 false (fun _ => none)).2.1 (by decide),
    (new_spec 0 true (fun _ => (none : Ptr Nat))).1.mpr rfl⟩

/-- C16: every buffer reached from a successful construction by a sequence of
calls none of which stops at a fault has `capacity > 0` and
`size <= capacity`, also right after a shrinking `resize`; and `resize(0)`
stops at its assertion. -/
theorem reachable_bounds (capacity : Nat) (d : Bool) (uninit : Nat → Ptr α)
    (ops : List (Op α)) (c0 c : Circular α) (bs : List Bool)
    (hnew : new capacity d uninit = .ok c0) (hrun : run c0 ops = .ok (bs, c)) :
    0 < c._capacity ∧ c._size ≤ c._capacity ∧ resize c 0 = .error .assertion := by
  have hf := new_fields hnew
  have hb := run_bounds ops c0 c bs hrun (by omega) (by omega)
  exact ⟨hb.1, hb.2, by simp [resize]⟩

/-- The theorem `reachable_bounds` at a run that ends with a shrinking `resize`. -/
theorem reachable_bounds_witness :
    new 4 true (fun _ => none) = .ok exFresh ∧
    run exFresh exShrinkOps = .ok ([true, true, true], exShrunk) ∧
    0 < exShrunk._capacity ∧ exShrunk._size ≤ exShrunk._capacity ∧
    resize exShrunk 0 = .error .assertion :=
  have h1 : new 4 true (fun _ => none) = .ok exFresh := by decide
  have h2 : run exFresh exShrinkOps = .ok ([true, true, true], exShrunk) := by
    simp [exFresh, exShrinkOps, exShrunk, run, step, stepVoid, pushBack, pushFront, resize,
      resizeEvict, resizeCopy, removeFront, popFront, load, memcpy, store, isFull, isEmpty]
    rfl
  ⟨h1, h2, reachable_bounds 4 true (fun _ => none) exShrinkOps exFresh exShrunk _ h1 h2⟩

/-- C17: the index claim fails on the code.  On a fresh `Circular(1)` the calls
`pushBack(1)`, `resize(1)` succeed and leave `front == 0` and
`back == 1 == capacity`: `back`, the slot of the next `pushBack`, is not an
index of the one-slot storage. -/
theorem resize_full_back_not_index :
    ∃ c0 c2, new 1 true (fun _ => none) = .ok c0 ∧
      run c0 (exResizeOps.take 2) = .ok ([true], c2) ∧
      c2._front = 0 ∧ c2._back = 1 ∧ c2._capacity = 1 ∧ c2._data.length = 1 ∧
      ¬ c2._back < c2._capacity ∧
      store c2._data c2._back (some 2) = .error .outOfBounds := by
  refine ⟨{ _delete := true, _capacity := 1, _front := 0, _back := 0, _size := 0,
            _data := [none], deleted := [] },
          { _delete := true, _capacity := 1, _front := 0, _back := 1, _size := 1,
            _data := [some 1], deleted := [] }, ?_, ?_, rfl, rfl, rfl, rfl, ?_, ?_⟩
  · decide
  · simp [exResizeOps, run, step, stepVoid, pushBack, resize, resizeEvict, resizeCopy,
      memcpy, store, isFull, isEmpty]
  · decide
  · decide

/-- C18: the claim on `back` fails on the code.  The well-formed buffer
`exWrapped` (capacity 4, size 2) after `resize(2)` has `front == 0`,
`size == 2 == capacity` and `back == 2`, not `size mod 2 == 0`. -/
theorem resize_to_size_back :
    WF exWrapped ∧
    ∃ c1, resize exWrapped 2 = .ok c1 ∧ c1._front = 0 ∧ c1._size = 2 ∧ c1._capacity = 2 ∧
      c1._back = 2 ∧ c1._size % 2 = 0 ∧ c1._back ≠ c1._size % 2 := by
  refine ⟨(by decide),
    { _delete := true, _capacity := 2, _front := 0, _back := 2, _size := 2,
      _data := [some 3, some 4], deleted := [] }, ?_, rfl, rfl, rfl, rfl, rfl, ?_⟩
  · simp [exWrapped, resize, resizeEvict, resizeCopy, memcpy]
  · decide

/-- C19: the claim `size == 0` implies `front == back` fails on the code.  On a
fresh `Circular(1)` the calls `pushBack(1)`, `resize(1)`, `popFront()` succeed
and leave `size == 0`, `front == 0` and `back == 1`. -/
theorem resize_full_then_popFront_empty :
    ∃ c0 c3, new 1 true (fun _ => none) = .ok c0 ∧
      run c0 [.pushBack (some 1), .resize 1, .popFront] = .ok ([true], c3) ∧
      c3._size = 0 ∧ c3._front = 0 ∧ c3._back = 1 ∧ c3._front ≠ c3._back := by
  refine ⟨{ _delete := true, _capacity := 1, _front := 0, _back := 0, _size := 0,
            _data := [none], deleted := [] },
          { _delete := true, _capacity := 1, _front := 0, _back := 1, _size := 0,
            _data := [some 1], deleted := [] }, ?_, ?_, rfl, rfl, rfl, ?_⟩
  · decide
  · simp [run, step, stepVoid, pushBack, popFront, resize, resizeEvict, resizeCopy,
      memcpy, store, isFull, isEmpty]
  · decide

/-- C20: on a well-formed buffer and for `newCapacity > 0`, the eviction loop of
`resize` returns a well-formed buffer with `size <= newCapacity`; in the
contiguous branch `front + size <= oldCapacity`, in the wrap branch
`(oldCapacity - front) + back == size`, so each `memcpy` reads inside the old
array and writes inside the new one; the copy returns, and the new array holds
the logical contents in its slots `[0, size)` and `nullptr` in the others. -/
theorem resize_in_bounds (c : Circular α) (n : Nat) (hwf : WF c) (hn : 0 < n) :
    ∃ c1 c2, resizeEvict n c = .ok c1 ∧ WF c1 ∧ c1._size ≤ n ∧
      c1._capacity = c._capacity ∧ c1._data.length = c._capacity ∧
      (0 < c1._size → c1._front < c1._back →
        c1._front + c1._size ≤ c1._data.length ∧ 0 + c1._size ≤ n) ∧
      (0 < c1._size → c1._front ≥ c1._back →
        (c1._capacity - c1._front) + c1._back = c1._size ∧ c1._size ≤ n ∧
        c1._front + (c1._capacity - c1._front) ≤ c1._data.length ∧
        0 + (c1._capacity - c1._front) ≤ n ∧
        0 + c1._back ≤ c1._data.length ∧
        (c1._capacity - c1._front) + c1._back ≤ n) ∧
      resizeCopy c1 n = .ok c2 ∧ resize c n = .ok c2 ∧
      c2._data.length = n ∧
      c2._data = (List.range c1._size).map (slot c1) ++ List.replicate (n - c1._size) none := by
  have hk : c._size - n ≤ c._size := Nat.sub_le _ _
  have hwf1 := WF_evicted hwf hk
  have he := resizeEvict_eq n _ c hwf rfl
  have hsz1 : (evicted c (c._size - n))._size ≤ n := by simp only [evicted]; omega
  have hcopy := resizeCopy_eq hwf1 hsz1
  obtain ⟨h0, hsz, hf, hb, hl⟩ := hwf1
  have hwf1 : WF (evicted c (c._size - n)) := ⟨h0, hsz, hf, hb, hl⟩
  rw [mod_wrap _ _ (by omega)] at hb
  refine ⟨_, _, he, hwf1, hsz1, rfl, hwf.2.2.2.2, ?_, ?_, hcopy, ?_, ?_, rfl⟩
  · intro hpos hlt
    constructor
    · split at hb <;> omega
    · omega
  · intro hpos hge
    have : (evicted c (c._size - n))._capacity - (evicted c (c._size - n))._front
        + (evicted c (c._size - n))._back = (evicted c (c._size - n))._size := by
      split at hb <;> omega
    refine ⟨this, hsz1, ?_, ?_, ?_, ?_⟩ <;> omega
  · simp only [resize, gt_iff_lt, hn, if_true, he, hcopy]
  · simp only [List.length_append, List.length_map, List.length_range, List.length_replicate]
    omega

/-- The theorem `resize_in_bounds` at a full, wrapped buffer that shrinks. -/
theorem resize_in_bounds_witness :
    WF exFull ∧ 0 < 2 ∧
    ∃ c1 c2, resizeEvict 2 exFull = .ok c1 ∧ WF c1 ∧ c1._size ≤ 2 ∧
      c1._capacity = exFull._capacity ∧ c1._data.length = exFull._capacity ∧
      (0 < c1._size → c1._front < c1._back →
        c1._front + c1._size ≤ c1._data.length ∧ 0 + c1._size ≤ 2) ∧
      (0 < c1._size → c1._front ≥ c1._back →
        (c1._capacity - c1._front) + c1._back = c1._size ∧ c1._size ≤ 2 ∧
        c1._front + (c1._capacity - c1._front) ≤ c1._data.length ∧
        0 + (c1._capacity - c1._front) ≤ 2 ∧
        0 + c1._back ≤ c1._data.length ∧
        (c1._capacity - c1._front) + c1._back ≤ 2) ∧
      resizeCopy c1 2 = .ok c2 ∧ resize exFull 2 = .ok c2 ∧
      c2._data.length = 2 ∧
      c2._data = (List.range c1._size).map (slot c1) ++ List.replicate (2 - c1._size) none :=
  ⟨by decide, by decide, resize_in_bounds exFull 2 (by decide) (by decide)⟩

end Circular
